import Mathlib

/-!
Verification of the graph construction, entity-reconciliation and
relational-analytics pipeline of the `cain-and-abel` repository.

The Python sources are shallowly embedded: dictionaries become association
lists, Python sets become insertion-ordered duplicate-free lists, `while`
loops become fuel-indexed recursions, and exceptions become `Except`/`Option`
values.  Every definition is translated from the corresponding source
function (file and symbol named in its doc comment).
-/

namespace CainAbel

/-- Association-list lookup (models Python `dict.get` / `dict[key]`). -/
def alookup {α β : Type} [DecidableEq α] (k : α) : List (α × β) → Option β
  | [] => none
  | (a, b) :: rest => if a = k then some b else alookup k rest

/-- Update an existing key of an association list in place. -/
def aupdate {α β : Type} [DecidableEq α] (k : α) (f : β → β) : List (α × β) → List (α × β)
  | [] => []
  | (a, b) :: rest => if a = k then (a, f b) :: rest else (a, b) :: aupdate k f rest

/-- Insert into a Python-set modelled as an insertion-ordered list. -/
def insertUniq {α : Type} [DecidableEq α] (l : List α) (x : α) : List α :=
  if x ∈ l then l else l ++ [x]

/-- Deduplicate keeping the first occurrence of each element. -/
def dedupKeepFirst {α : Type} [DecidableEq α] (l : List α) : List α :=
  l.foldl insertUniq []

theorem alookup_append {α β : Type} [DecidableEq α] (k : α) (l1 l2 : List (α × β)) :
    alookup k (l1 ++ l2) = ((alookup k l1).orElse (fun _ => alookup k l2)) := by
  induction l1 with
  | nil => simp [alookup, Option.orElse]
  | cons hd tl ih =>
    obtain ⟨a, b⟩ := hd
    by_cases h : a = k <;> simp [alookup, h, ih, Option.orElse]

theorem mem_insertUniq {α : Type} [DecidableEq α] (l : List α) (x y : α) :
    y ∈ insertUniq l x ↔ y ∈ l ∨ y = x := by
  unfold insertUniq
  by_cases h : x ∈ l
  · simp only [if_pos h]
    exact ⟨Or.inl, fun hy => hy.elim id (fun hyx => hyx ▸ h)⟩
  · simp [if_neg h]

theorem mem_dedupKeepFirst {α : Type} [DecidableEq α] (l : List α) (y : α) :
    y ∈ dedupKeepFirst l ↔ y ∈ l := by
  suffices h : ∀ acc : List α, y ∈ l.foldl insertUniq acc ↔ y ∈ acc ∨ y ∈ l by
    simpa [dedupKeepFirst] using h []
  induction l with
  | nil => intro acc; simp
  | cons hd tl ih =>
    intro acc
    simp only [List.foldl_cons, ih, mem_insertUniq, List.mem_cons]
    tauto

/-- Does one character list start with another? -/
def charPrefixOf : List Char → List Char → Bool
  | [], _ => true
  | _ :: _, [] => false
  | a :: as_, b :: bs => a == b && charPrefixOf as_ bs

/-- Does `needle` occur contiguously inside `hay`? -/
def charInfixOf (needle : List Char) : List Char → Bool
  | [] => needle.isEmpty
  | c :: rest => charPrefixOf needle (c :: rest) || charInfixOf needle rest

/-- Python substring containment `needle in hay`. -/
def substr (needle hay : String) : Bool :=
  charInfixOf needle.toList hay.toList

/-- Python `str.lower()` (kernel-computable per-character lowering). -/
def strToLower (s : String) : String :=
  String.mk (s.data.map Char.toLower)

/-- Code-point comparison of characters (Python compares strings by code
points; kernel-computable, unlike the iterator-based core instances). -/
def charLt (a b : Char) : Bool := decide (a.toNat < b.toNat)

/-- Lexicographic code-point comparison of character lists. -/
def charListLt : List Char → List Char → Bool
  | [], [] => false
  | [], _ :: _ => true
  | _ :: _, [] => false
  | a :: as_, b :: bs =>
    if charLt a b then true else if charLt b a then false else charListLt as_ bs

/-- Python `a < b` on strings. -/
def strLtB (a b : String) : Bool := charListLt a.data b.data

/-- Python `a <= b` on strings. -/
def strLeB (a b : String) : Bool := !(strLtB b a)

theorem charLt_asymm {a b : Char} (h : charLt a b = true) : charLt b a = false := by
  unfold charLt at h ⊢
  simp only [decide_eq_true_eq] at h
  simp [Nat.not_lt.mpr (Nat.le_of_lt h)]

theorem charListLt_irrefl : ∀ l : List Char, charListLt l l = false := by
  intro l
  induction l with
  | nil => rfl
  | cons a as_ ih =>
    have h : charLt a a = false := by unfold charLt; simp
    simp [charListLt, h, ih]

theorem charListLt_asymm :
    ∀ l1 l2 : List Char, charListLt l1 l2 = true → charListLt l2 l1 = false := by
  intro l1
  induction l1 with
  | nil =>
    intro l2 h
    cases l2 with
    | nil => rfl
    | cons b bs => rfl
  | cons a as_ ih =>
    intro l2 h
    cases l2 with
    | nil => simp [charListLt] at h
    | cons b bs =>
      cases hab : charLt a b with
      | true =>
        have hba := charLt_asymm hab
        simp [charListLt, hab, hba]
      | false =>
        cases hba : charLt b a with
        | true => simp [charListLt, hab, hba] at h
        | false =>
          simp only [charListLt, hab, hba] at h ⊢
          simp only [Bool.false_eq_true, if_false] at h ⊢
          exact ih bs h

theorem charListLt_conn :
    ∀ l1 l2 : List Char, charListLt l1 l2 = false → charListLt l2 l1 = false → l1 = l2 := by
  intro l1
  induction l1 with
  | nil =>
    intro l2 h1 _
    cases l2 with
    | nil => rfl
    | cons b bs => simp [charListLt] at h1
  | cons a as_ ih =>
    intro l2 h1 h2
    cases l2 with
    | nil => simp [charListLt] at h2
    | cons b bs =>
      cases hab : charLt a b with
      | true => simp [charListLt, hab] at h1
      | false =>
        cases hba : charLt b a with
        | true => simp [charListLt, hab, hba] at h2
        | false =>
          simp only [charListLt, hab, hba] at h1 h2
          simp only [Bool.false_eq_true, if_false] at h1 h2
          have hch : a = b := by
            unfold charLt at hab hba
            simp only [decide_eq_false_iff_not, Nat.not_lt] at hab hba
            exact Char.eq_of_val_eq (UInt32.ext (Nat.le_antisymm hba hab))
          rw [hch, ih bs h1 h2]

theorem strLeB_refl (a : String) : strLeB a a = true := by
  simp [strLeB, strLtB, charListLt_irrefl]

theorem strLeB_total {u v : String} (h : ¬ strLeB u v = true) : strLeB v u = true := by
  have hx : charListLt v.data u.data = true := by
    by_contra hc
    rw [Bool.not_eq_true] at hc
    apply h
    unfold strLeB strLtB
    rw [hc]
    rfl
  unfold strLeB strLtB
  rw [charListLt_asymm _ _ hx]
  rfl

theorem strLeB_antisymm {a b : String} (h1 : strLeB a b = true) (h2 : strLeB b a = true) :
    a = b := by
  unfold strLeB strLtB at h1 h2
  have e1 : charListLt b.data a.data = false := by
    cases hh : charListLt b.data a.data
    · rfl
    · rw [hh] at h1; cases h1
  have e2 : charListLt a.data b.data = false := by
    cases hh : charListLt a.data b.data
    · rfl
    · rw [hh] at h2; cases h2
  have hdata : a.data = b.data := charListLt_conn _ _ e2 e1
  cases a
  cases b
  exact congrArg String.mk hdata

/-!
## Enrichment role taxonomy — `src/scripts/enrich_network.py`

Node attribute values are arbitrary JSON-ish data; `_gather_strings` only
keeps strings, recursing through lists/tuples/sets, so we model a value as a
string or a list of values.
-/

/-- A Python attribute value as seen by `_gather_strings`: a string or a
(possibly nested) sequence of values. -/
inductive Value where
  | str : String → Value
  | vlist : List Value → Value

mutual

def Value.beq : Value → Value → Bool
  | .str a, .str b => a == b
  | .vlist a, .vlist b => Value.beqList a b
  | _, _ => false

def Value.beqList : List Value → List Value → Bool
  | [], [] => true
  | a :: as_, b :: bs => Value.beq a b && Value.beqList as_ bs
  | _, _ => false

end

instance : BEq Value := ⟨Value.beq⟩

/-- Python truthiness of an attribute value (`if value:`). -/
def Value.truthy : Value → Bool
  | .str s => !s.isEmpty
  | .vlist l => !l.isEmpty

mutual

/-- `_gather_strings` from `src/scripts/enrich_network.py` (lines 142-149). -/
def gatherStrings : Value → List String
  | .str s => [s]
  | .vlist l => gatherStringsList l

def gatherStringsList : List Value → List String
  | [] => []
  | v :: rest => gatherStrings v ++ gatherStringsList rest

end

/-- Node attributes: an open string-keyed map of values. -/
abbrev Attrs := List (String × Value)

/-- `ROLE_KEYWORDS` table (`src/scripts/enrich_network.py` lines 34-43),
in dict insertion order. -/
def ROLE_KEYWORDS : List (String × List String) :=
  [ ("monarch", ["monarch", "sovereign", "king", "queen", "ruler", "emir", "sheikh", "sultan"])
  , ("royal_family", ["prince", "princess", "royal", "emirati royal", "al nahyan", "al maktoum"])
  , ("politician", ["politician", "prime minister", "minister", "ruler of", "governor", "president", "member of knesset"])
  , ("business_elite", ["business", "investor", "ceo", "entrepreneur", "billionaire", "financier"])
  , ("military", ["general", "army", "commander", "defense", "military", "idf"])
  , ("cleric", ["imam", "cleric", "sheikh", "mufti", "religious"])
  , ("bureaucrat", ["civil servant", "bureaucrat", "official", "administrator"])
  , ("defense_industry", ["defense", "aerospace", "arms", "missile", "intelligence", "contractor", "security"]) ]

def DEFAULT_ROLE : String := "other"

/-- Keys scanned by `infer_role` (line 156), in source order. -/
def roleCandidateKeys : List String :=
  ["role", "roles", "occupation", "occupations", "position", "positions", "description", "categories"]

/-- The candidate strings gathered by `infer_role` (lines 155-159). -/
def inferRoleCandidates (attrs : Attrs) : List String :=
  roleCandidateKeys.foldl
    (fun acc key =>
      match alookup key attrs with
      | some v => if v.truthy then acc ++ gatherStrings v else acc
      | none => acc)
    []

/-- The lower-cased concatenated text matched by `infer_role` (line 161). -/
def inferRoleText (attrs : Attrs) : String :=
  strToLower (String.intercalate " " (inferRoleCandidates attrs))

/-- The `for role, keywords in ROLE_KEYWORDS.items()` loop of `infer_role`
(lines 162-164): first role whose keyword list matches the text. -/
def findRole : List (String × List String) → String → Option String
  | [], _ => none
  | (role, kws) :: rest, text =>
    if kws.any (fun kw => substr kw text) then some role else findRole rest text

/-- `infer_role` from `src/scripts/enrich_network.py` (lines 152-167),
including the trailing royal/sheikh fallback (lines 165-166). -/
def inferRole (attrs : Attrs) : String :=
  match findRole ROLE_KEYWORDS (inferRoleText attrs) with
  | some r => r
  | none =>
    if substr "royal" (inferRoleText attrs) || substr "sheikh" (inferRoleText attrs) then
      "royal_family"
    else DEFAULT_ROLE

/-- All taxonomy roles matching a node's text, in taxonomy iteration order. -/
def roleMatches (attrs : Attrs) : List String :=
  (ROLE_KEYWORDS.filter (fun rk => rk.2.any (fun kw => substr kw (inferRoleText attrs)))).map Prod.fst

/-- Modelled from the spec (not present in the code): "the first matching role
in taxonomy iteration order becomes the primary role, all other matches become
secondary roles".  Used only to compare the spec's claimed secondary-role set
with the code's output. -/
def specSecondaryRoles (attrs : Attrs) : List String :=
  (roleMatches attrs).tail

/-- The single role value assigned per node by `enrich`
(`src/scripts/enrich_network.py` line 327: `attrs.get("role") or infer_role(attrs)`). -/
def enrichRole (attrs : Attrs) : Value :=
  match alookup "role" attrs with
  | some v => if v.truthy then v else .str (inferRole attrs)
  | none => .str (inferRole attrs)

/-- The keys of the enriched node record assembled by `enrich`
(`src/scripts/enrich_network.py` lines 326-333 and 359-386): the input
attribute keys (with `role`/`country` written back), plus the fixed metric
keys set on `node_out`. -/
def enrichedNodeKeys (attrs : Attrs) : List String :=
  attrs.map Prod.fst ++
    ["role", "country", "id", "degree", "in_degree", "out_degree",
     "betweenness_centrality", "power_score", "community_id",
     "distance_to_monarch", "aliases"]

theorem findRole_eq_head (l : List (String × List String)) (text : String) :
    findRole l text =
      ((l.filter (fun rk => rk.2.any (fun kw => substr kw text))).map Prod.fst).head? := by
  induction l with
  | nil => simp [findRole]
  | cons hd tl ih =>
    obtain ⟨role, kws⟩ := hd
    by_cases h : kws.any (fun kw => substr kw text) = true <;>
      simp [findRole, h, ih, List.filter_cons]

theorem inferRole_eq_firstMatch (attrs : Attrs) :
    inferRole attrs = (roleMatches attrs).headD DEFAULT_ROLE := by
  unfold inferRole roleMatches
  rw [findRole_eq_head, List.headD_eq_head?]
  set text := inferRoleText attrs with htext
  set matched := ROLE_KEYWORDS.filter (fun rk => rk.2.any (fun kw => substr kw text)) with hm
  cases h : (matched.map Prod.fst).head? with
  | some r => simp [h]
  | none =>
    simp only [h, Option.getD_none]
    have hempty : matched = [] := by
      cases hm2 : matched with
      | nil => rfl
      | cons a b => rw [hm2] at h; simp at h
    have hnone : ∀ rk ∈ ROLE_KEYWORDS, ¬ (rk.2.any (fun kw => substr kw text) = true) := by
      intro rk hrk hr
      have hmm : rk ∈ matched := by
        rw [hm]; exact List.mem_filter.mpr ⟨hrk, hr⟩
      rw [hempty] at hmm; exact absurd hmm (List.not_mem_nil rk)
    have hroyal : ¬ (substr "royal" text = true) := by
      have hmem : ("royal_family",
          ["prince", "princess", "royal", "emirati royal", "al nahyan", "al maktoum"])
          ∈ ROLE_KEYWORDS := by simp [ROLE_KEYWORDS]
      have hno := hnone _ hmem
      simp only [List.any_eq_true, not_exists, not_and] at hno
      exact hno "royal" (by simp)
    have hsheikh : ¬ (substr "sheikh" text = true) := by
      have hmem : ("monarch",
          ["monarch", "sovereign", "king", "queen", "ruler", "emir", "sheikh", "sultan"])
          ∈ ROLE_KEYWORDS := by simp [ROLE_KEYWORDS]
      have hno := hnone _ hmem
      simp only [List.any_eq_true, not_exists, not_and] at hno
      exact hno "sheikh" (by simp)
    simp only [Bool.not_eq_true] at hroyal hsheikh
    simp [hroyal, hsheikh]

theorem alookup_map_fst {α β γ : Type} [DecidableEq α] (k : α) (f : α → γ) (l : List (α × β)) :
    alookup k (l.map (fun p => (p.1, f p.1))) = (alookup k l).map (fun _ => f k) := by
  induction l with
  | nil => simp [alookup]
  | cons hd tl ih =>
    obtain ⟨a, b⟩ := hd
    by_cases h : a = k
    · subst h; simp [alookup]
    · simp [alookup, h, ih]

/-!
## Composite importance score — `compute_power_score`
(`src/scripts/enrich_network.py` lines 251-267).  Python floats are modelled
as rationals; only the shape of the weighted sum is at stake.
-/

/-- The score the `for node in deg_norm` loop body computes for one node. -/
def powerScoreOf (degNorm betNorm roleCounts distNorm : List (String × ℚ))
    (node : String) : ℚ :=
  let role_component := (alookup node roleCounts).getD 0
  let distance_component := 1 - (alookup node distNorm).getD 0
  45/100 * ((alookup node degNorm).getD 0)
    + 35/100 * ((alookup node betNorm).getD 0)
    + 10/100 * role_component
    + 10/100 * distance_component

/-- `compute_power_score`: one score per key of `deg_norm`. -/
def computePowerScore (degNorm betNorm roleCounts distNorm : List (String × ℚ)) :
    List (String × ℚ) :=
  degNorm.map (fun nd => (nd.1, powerScoreOf degNorm betNorm roleCounts distNorm nd.1))

/-!
## Reconciliation Index — `GovernmentIndex` (`src/wikinet/cia.py`).
Only the state touched by `resolve_official` / `record_qid` is embedded.
-/

/-- `CIAOfficial` (`src/wikinet/cia.py` lines 72-83). -/
structure Official where
  country : String
  position : String
  name : String
  categories : List String
deriving DecidableEq

/-- `CIAOfficial.key` property. -/
def Official.key (o : Official) : String × String := (o.country, o.name)

/-- The mutable state of a `GovernmentIndex` used by `resolve_official`:
`_resolution_cache` and `_by_qid`. -/
structure GovIndex where
  resolutionCache : List ((String × String) × Option String)
  byQid : List (String × List Official)

/-- `GovernmentIndex.record_qid` (line 302-303). -/
def recordQid (st : GovIndex) (qid : String) (o : Official) : GovIndex :=
  match alookup qid st.byQid with
  | some _ => { st with byQid := aupdate qid (fun l => l ++ [o]) st.byQid }
  | none => { st with byQid := st.byQid ++ [(qid, [o])] }

/-- `GovernmentIndex.resolve_official` (lines 317-328).  The injected
resolver's `resolve_seed` is a function returning `none` where the Python
call raises `ValueError`.  The third component records whether the resolver
was invoked during this call (ghost instrumentation). -/
def resolveOfficial (st : GovIndex) (o : Official) (resolver : String → Option String) :
    Option String × GovIndex × Bool :=
  match alookup o.key st.resolutionCache with
  | some cached => (cached, st, false)
  | none =>
    let qid := resolver o.name
    let st1 :=
      match qid with
      | some q => if q.isEmpty then st else recordQid st q o
      | none => st
    (qid, { st1 with resolutionCache := st1.resolutionCache ++ [(o.key, qid)] }, true)

theorem recordQid_resolutionCache (st : GovIndex) (q : String) (o : Official) :
    (recordQid st q o).resolutionCache = st.resolutionCache := by
  unfold recordQid
  cases alookup q st.byQid <;> rfl

theorem resolveOfficial_caches (st : GovIndex) (o : Official)
    (r : String → Option String) :
    alookup o.key (resolveOfficial st o r).2.1.resolutionCache =
      some (resolveOfficial st o r).1 := by
  unfold resolveOfficial
  cases h : alookup o.key st.resolutionCache with
  | some cached => simp [h]
  | none =>
    simp only [h]
    cases hq : r o.name with
    | none => simp [alookup_append, h, alookup, Option.orElse]
    | some q =>
      by_cases he : q.isEmpty <;>
        simp [he, alookup_append, h, recordQid_resolutionCache, alookup, Option.orElse]

theorem resolveOfficial_hit (st : GovIndex) (o : Official) (r : String → Option String)
    (res : Option String) (h : alookup o.key st.resolutionCache = some res) :
    resolveOfficial st o r = (res, st, false) := by
  unfold resolveOfficial
  simp [h]

/-- **C8** (confirmed).  Within one Reconciliation Index instance, resolving
the same official (same `(country, name)` key) a second time returns the same
result as the first resolution, leaves the index state untouched, and does not
invoke the injected resolver (the ghost `invoked` flag of the second call is
`false`) — whether the first resolution produced an id or `none`, and even if
the second call is given a different resolver. -/
theorem resolveOfficial_memoized (st : GovIndex) (o : Official)
    (r1 r2 : String → Option String) :
    (resolveOfficial (resolveOfficial st o r1).2.1 o r2).1 = (resolveOfficial st o r1).1 ∧
    (resolveOfficial (resolveOfficial st o r1).2.1 o r2).2.1 = (resolveOfficial st o r1).2.1 ∧
    (resolveOfficial (resolveOfficial st o r1).2.1 o r2).2.2 = false := by
  have h := resolveOfficial_caches st o r1
  rw [resolveOfficial_hit (resolveOfficial st o r1).2.1 o r2 (resolveOfficial st o r1).1 h]
  exact ⟨rfl, rfl, rfl⟩

/-- **C9** (confirmed).  For every node of `deg_norm`, the composite score is
exactly `0.45·deg + 0.35·bet + 0.10·role + 0.10·(1 − dist)` with the four
weights fixed constants (floats modelled as rationals). -/
theorem computePowerScore_weighted_sum (dn bn rc dsn : List (String × ℚ))
    (node : String) (v : ℚ) (h : alookup node dn = some v) :
    alookup node (computePowerScore dn bn rc dsn) =
      some (45/100 * v + 35/100 * ((alookup node bn).getD 0)
        + 10/100 * ((alookup node rc).getD 0)
        + 10/100 * (1 - (alookup node dsn).getD 0)) := by
  unfold computePowerScore
  rw [alookup_map_fst node (powerScoreOf dn bn rc dsn) dn]
  simp [h, powerScoreOf]

def c9dn : List (String × ℚ) := [("A", 1/2)]

def c9bn : List (String × ℚ) := [("A", 1)]

def c9dsn : List (String × ℚ) := [("A", 1/4)]

/-- Witness for C9 at a concrete input. -/
theorem computePowerScore_weighted_sum_witness :
    alookup "A" c9dn = some (1/2) ∧
    alookup "A" (computePowerScore c9dn c9bn [] c9dsn) =
      some (45/100 * (1/2) + 35/100 * ((alookup "A" c9bn).getD 0)
        + 10/100 * ((alookup "A" ([] : List (String × ℚ))).getD 0)
        + 10/100 * (1 - (alookup "A" c9dsn).getD 0)) :=
  ⟨rfl, computePowerScore_weighted_sum c9dn c9bn [] c9dsn "A" (1/2) rfl⟩

/-- **C4** (amended).  `enrich` assigns exactly one role per node: the node's
pre-existing truthy `role` attribute when present, otherwise the first role in
taxonomy iteration order whose keywords match the concatenated textual
attributes, defaulting to `"other"`; no secondary-role set is ever computed
or attached (the enriched record carries a secondary-roles key only if the
input attributes already did). -/
theorem enrich_primary_role_only (attrs : Attrs) :
    (∀ v, alookup "role" attrs = some v → v.truthy = true → enrichRole attrs = v) ∧
    ((∀ v, alookup "role" attrs = some v → v.truthy = false) →
      enrichRole attrs = .str ((roleMatches attrs).headD DEFAULT_ROLE)) ∧
    ("secondary_roles" ∈ enrichedNodeKeys attrs ↔ "secondary_roles" ∈ attrs.map Prod.fst) := by
  refine ⟨?_, ?_, ?_⟩
  · intro v hv ht
    unfold enrichRole
    simp [hv, ht]
  · intro hall
    unfold enrichRole
    cases h : alookup "role" attrs with
    | none => simp [inferRole_eq_firstMatch]
    | some v =>
      have hf := hall v h
      simp [hf, inferRole_eq_firstMatch]
  · have hfixed : "secondary_roles" ∉
        ["role", "country", "id", "degree", "in_degree", "out_degree",
         "betweenness_centrality", "power_score", "community_id",
         "distance_to_monarch", "aliases"] := by decide
    simp [enrichedNodeKeys, List.mem_append, hfixed]

/-- Witness for C4's amended theorem: a node with a pre-set truthy role keeps
it; a node without one gets the first taxonomy match. -/
theorem enrich_primary_role_only_witness :
    (Value.truthy (.str "banana") = true ∧
      enrichRole [("role", Value.str "banana")] = Value.str "banana") ∧
    enrichRole [("description", Value.str "queen of x")] =
      Value.str ((roleMatches [("description", Value.str "queen of x")]).headD DEFAULT_ROLE) := by
  refine ⟨⟨rfl, (enrich_primary_role_only _).1 _ rfl rfl⟩,
    (enrich_primary_role_only _).2.1 ?_⟩
  intro v hv
  have hnone : alookup "role" [("description", Value.str "queen of x")] = none := rfl
  rw [hnone] at hv
  cases hv

def c4Attrs : Attrs := [("description", Value.str "king and politician")]

/-- **C4 counterexample.**  For the node whose description matches both the
"monarch" and the "politician" keyword lists, the claim requires "politician"
to become a member of the node's secondary-role set; but the enriched record
produced by the code has exactly the listed keys and carries no secondary-role
set at all.  Moreover a node with pre-set role `"banana"` keeps it, although
"banana" matches no taxonomy role (the taxonomy-first-match rule would give
`"other"`). -/
theorem enrich_secondary_roles_counterexample :
    inferRole c4Attrs = "monarch" ∧
    specSecondaryRoles c4Attrs = ["politician"] ∧
    enrichedNodeKeys c4Attrs =
      ["description", "role", "country", "id", "degree", "in_degree", "out_degree",
       "betweenness_centrality", "power_score", "community_id", "distance_to_monarch",
       "aliases"] ∧
    ¬ ("secondary_roles" ∈ enrichedNodeKeys c4Attrs) ∧
    enrichRole [("role", Value.str "banana")] = Value.str "banana" ∧
    inferRole [("role", Value.str "banana")] = DEFAULT_ROLE := by
  refine ⟨?_, ?_, rfl, by decide, rfl, ?_⟩ <;> decide

/-!
## The graph data structure

`src/networkx/__init__.py` provides the `MultiDiGraph` used by the pipeline:
node attribute dicts keyed by node id plus an adjacency of edge-attribute
lists.  We embed it as an insertion-ordered association list of node
attributes plus an insertion-ordered edge list (the stub's `edges()` view).
`add_edge` first calls `add_node` on both endpoints.
-/

/-- The node attribute dict (the keys touched by the embedded pipeline). -/
structure NodeAttrs where
  label : Option String := none
  description : Option String := none
  clusters : List String := []
  familyLevel : Option Nat := none
deriving DecidableEq

/-- The edge attribute dict: the fields of `schemas.Edge` (which is exactly
what `GraphBuilder.crawl` passes to `add_edge`, and what the infobox fallback
passes field by field). -/
structure EdgeAttrs where
  relation : String
  pid : String
  source_system : String
  evidence_url : String
  retrieved_at : String
  data : List (String × String) := []
deriving DecidableEq

/-- `networkx.MultiDiGraph` (vendored stub in `src/networkx/__init__.py`). -/
structure Graph where
  nodes : List (String × NodeAttrs) := []
  edges : List (String × String × EdgeAttrs) := []
deriving DecidableEq

def Graph.nodeIds (g : Graph) : List String := g.nodes.map Prod.fst

/-- `MultiDiGraph.add_node(node, **attrs)`: merge attributes into the
existing dict, creating the node if absent. -/
def Graph.addNodeWith (g : Graph) (nid : String) (f : NodeAttrs → NodeAttrs) : Graph :=
  match alookup nid g.nodes with
  | some _ => { g with nodes := aupdate nid f g.nodes }
  | none => { g with nodes := g.nodes ++ [(nid, f {})] }

/-- `MultiDiGraph.add_edge(u, v, **attrs)`: `add_node(u); add_node(v)` with
no attributes, then append the edge. -/
def Graph.addEdge (g : Graph) (u v : String) (a : EdgeAttrs) : Graph :=
  let g1 := (g.addNodeWith u (fun x => x)).addNodeWith v (fun x => x)
  { g1 with edges := g1.edges ++ [(u, v, a)] }

/-- No-dangling-endpoints invariant (spec §3, §8): every edge's source and
target ids are present among the graph's node ids. -/
def Graph.noDangling (g : Graph) : Prop :=
  ∀ e ∈ g.edges, e.1 ∈ g.nodeIds ∧ e.2.1 ∈ g.nodeIds

/-!
## Kinship-chart projection — `src/wikinet/family_chart.py`
-/

/-- `FAMILY_PROPS.values()` from `src/wikinet/wikidata.py` (lines 13-21). -/
def FAMILY_RELATIONS : List String :=
  ["father", "mother", "spouse", "child", "sibling", "relative", "partner"]

def PARENTAL_RELATIONS : List String := ["father", "mother", "child"]

def PARTNER_RELATIONS : List String := ["spouse", "partner"]

def SIBLING_RELATIONS : List String := ["sibling", "relative"]

/-- `_parent_child_pairs` (`family_chart.py` lines 26-44): normalize kinship
edges into explicit parent→child tuples.  `child` edges point parent→child;
`father`/`mother` edges point child→parent and are flipped. -/
def parentChildPairs (g : Graph) : List (String × String × EdgeAttrs) :=
  g.edges.filterMap (fun e =>
    if e.2.2.relation ∈ PARENTAL_RELATIONS then
      (if e.2.2.relation = "child" then some (e.1, e.2.1, e.2.2)
       else some (e.2.1, e.1, e.2.2))
    else none)

/-- The parents recorded for one child in a normalized parent→child arc
list, in arc order. -/
def recordedParents (pairs : List (String × String × EdgeAttrs)) (c : String) : List String :=
  pairs.filterMap (fun pc => if pc.2.1 = c then some pc.1 else none)

/-- The multiset of a child's recorded parents, over all normalized
parent→child arcs (matches `parent_map` construction order). -/
def parentsOf (g : Graph) (child : String) : List String :=
  recordedParents (parentChildPairs g) child

/-- Python `tuple(sorted((u, v)))` for a string pair. -/
def pairKey (u v : String) : String × String :=
  if strLeB u v then (u, v) else (v, u)

/-- The value stored per partnership key by `_partnerships`. -/
structure UnionMeta where
  partners : List String
  relations : List String
deriving DecidableEq

/-- Stable insertion of one element into a sorted list. -/
def insertSortedBy {α : Type} (le : α → α → Bool) (x : α) : List α → List α
  | [] => [x]
  | y :: ys => if le x y then x :: y :: ys else y :: insertSortedBy le x ys

/-- Python `sorted` (kernel-computable stable insertion sort). -/
def sortBy {α : Type} (le : α → α → Bool) (l : List α) : List α :=
  l.foldr (insertSortedBy le) []

def strLe (a b : String) : Bool := strLeB a b

/-- Lexicographic comparison of partnership keys, as Python compares
string tuples. -/
def pairLe (x y : (String × String) × UnionMeta) : Bool :=
  strLtB x.1.1 y.1.1 || (decide (x.1.1 = y.1.1) && strLeB x.1.2 y.1.2)

/-- `_partnerships` (`family_chart.py` lines 47-61): deduplicated partnership
edges keyed by the sorted id pair, relation names collected as a set and
finally sorted. -/
def partnerships (g : Graph) : List ((String × String) × UnionMeta) :=
  let raw := g.edges.foldl
    (fun acc e =>
      if e.2.2.relation ∈ PARTNER_RELATIONS then
        let key := pairKey e.1 e.2.1
        match alookup key acc with
        | some _ =>
          aupdate key (fun m => { m with relations := insertUniq m.relations e.2.2.relation }) acc
        | none => acc ++ [(key, { partners := [key.1, key.2], relations := [e.2.2.relation] })]
      else acc)
    ([] : List ((String × String) × UnionMeta))
  raw.map (fun km => (km.1, { km.2 with relations := sortBy strLe km.2.relations }))

/-- One union entry of the produced chart document. -/
structure UnionEntry where
  uid : String
  partners : List String
  relations : List String
  children : List String
deriving DecidableEq

/-- The `unions` dict built in `build_family_chart` (lines 124-132):
partnerships sorted by key, numbered `union_1`, `union_2`, … with empty
child lists. -/
def buildUnions (g : Graph) : List (String × UnionEntry) :=
  (sortBy pairLe (partnerships g)).enum.map
    (fun ie =>
      let uid := "union_" ++ toString (ie.1 + 1)
      (uid, { uid := uid, partners := ie.2.2.partners, relations := ie.2.2.relations,
              children := [] }))

/-- Boolean set equality of two id lists (models `frozenset` equality). -/
def setEqB (l1 l2 : List String) : Bool :=
  l1.all (fun x => decide (x ∈ l2)) && l2.all (fun x => decide (x ∈ l1))

/-- `parent_map` (lines 138-140): child id → list of recorded parents. -/
def parentMap (pairs : List (String × String × EdgeAttrs)) :
    List (String × List String) :=
  pairs.foldl
    (fun acc pc =>
      match alookup pc.2.1 acc with
      | some _ => aupdate pc.2.1 (fun l => l ++ [pc.1]) acc
      | none => acc ++ [(pc.2.1, [pc.1])])
    []

/-- Attaching one child (lines 141-145): `partner_lookup` maps the frozenset
of a union's partners to its id, so the child lands on the union whose
partner set equals the child's parent set (the partner sets of distinct
unions are provably distinct, so at most one union matches). -/
def attachChild (pset : List String) (child : String) :
    List (String × UnionEntry) → List (String × UnionEntry)
  | [] => []
  | (uid, e) :: rest =>
    if setEqB (dedupKeepFirst e.partners) pset then
      (uid, { e with children := e.children ++ [child] }) :: rest
    else (uid, e) :: attachChild pset child rest

/-- The union list of `build_family_chart` after the child-attachment loop
(`family_chart.py` lines 110-145); the remaining output fields
(relationships, layout, summary) do not affect union membership. -/
def buildFamilyChartUnions (g : Graph) : List (String × UnionEntry) :=
  (parentMap (parentChildPairs g)).foldl
    (fun acc cp => attachChild (dedupKeepFirst cp.2) cp.1 acc)
    (buildUnions g)

theorem alookup_aupdate_self {α β : Type} [DecidableEq α] (k : α) (f : β → β)
    (l : List (α × β)) : alookup k (aupdate k f l) = (alookup k l).map f := by
  induction l with
  | nil => simp [alookup, aupdate]
  | cons hd tl ih =>
    obtain ⟨a, b⟩ := hd
    by_cases h : a = k <;> simp [alookup, aupdate, h, ih]

theorem alookup_aupdate_ne {α β : Type} [DecidableEq α] {c k : α} (f : β → β)
    (l : List (α × β)) (h : c ≠ k) : alookup c (aupdate k f l) = alookup c l := by
  induction l with
  | nil => simp [aupdate]
  | cons hd tl ih =>
    obtain ⟨a, b⟩ := hd
    by_cases hk : a = k
    · subst hk
      have hac : ¬ (a = c) := fun hh => h hh.symm
      simp [alookup, aupdate, hac]
    · simp only [aupdate, if_neg hk]
      by_cases hc : a = c
      · simp [alookup, hc]
      · simp [alookup, hc, ih]

theorem aupdate_map_fst {α β : Type} [DecidableEq α] (k : α) (f : β → β)
    (l : List (α × β)) : (aupdate k f l).map Prod.fst = l.map Prod.fst := by
  induction l with
  | nil => rfl
  | cons hd tl ih =>
    obtain ⟨a, b⟩ := hd
    by_cases h : a = k <;> simp [aupdate, h, ih]

theorem alookup_eq_none_iff {α β : Type} [DecidableEq α] (k : α) (l : List (α × β)) :
    alookup k l = none ↔ k ∉ l.map Prod.fst := by
  induction l with
  | nil => simp [alookup]
  | cons hd tl ih =>
    obtain ⟨a, b⟩ := hd
    by_cases h : a = k
    · subst h; simp [alookup]
    · simp only [alookup, if_neg h, ih, List.map_cons, List.mem_cons]
      constructor
      · intro hnk
        rintro (rfl | hm)
        · exact h rfl
        · exact hnk hm
      · intro hnk hm
        exact hnk (Or.inr hm)

theorem mem_iff_alookup {α β : Type} [DecidableEq α] {k : α} {v : β}
    {l : List (α × β)} (hnd : (l.map Prod.fst).Nodup) :
    (k, v) ∈ l ↔ alookup k l = some v := by
  induction l with
  | nil => simp [alookup]
  | cons hd tl ih =>
    obtain ⟨a, b⟩ := hd
    simp only [List.map_cons, List.nodup_cons] at hnd
    by_cases h : a = k
    · subst h
      rw [show alookup a ((a, b) :: tl) = some b from by simp [alookup]]
      simp only [List.mem_cons, Option.some.injEq, Prod.mk.injEq, eq_self_iff_true, true_and]
      constructor
      · rintro (rfl | hmem)
        · rfl
        · exact absurd (List.mem_map.mpr ⟨(a, v), hmem, rfl⟩) hnd.1
      · rintro rfl; exact Or.inl rfl
    · simp only [alookup, if_neg h, List.mem_cons, Prod.mk.injEq]
      rw [ih hnd.2]
      constructor
      · rintro (⟨h1, h2⟩ | hmem)
        · exact absurd h1.symm h
        · exact hmem
      · exact Or.inr

theorem mem_aupdate {α β : Type} [DecidableEq α] {k : α} (f : β → β)
    {l : List (α × β)} {p : α × β} (hp : p ∈ aupdate k f l) :
    p ∈ l ∨ ∃ q ∈ l, p = (q.1, f q.2) := by
  induction l with
  | nil => simp [aupdate] at hp
  | cons hd tl ih =>
    obtain ⟨a, b⟩ := hd
    by_cases h : a = k
    · simp only [aupdate, if_pos h, List.mem_cons] at hp
      rcases hp with rfl | hp
      · exact Or.inr ⟨(a, b), List.mem_cons_self _ _, rfl⟩
      · exact Or.inl (List.mem_cons_of_mem _ hp)
    · simp only [aupdate, if_neg h, List.mem_cons] at hp
      rcases hp with rfl | hp
      · exact Or.inl (List.mem_cons_self _ _)
      · rcases ih hp with hmem | ⟨q, hq, rfl⟩
        · exact Or.inl (List.mem_cons_of_mem _ hmem)
        · exact Or.inr ⟨q, List.mem_cons_of_mem _ hq, rfl⟩

theorem insertSortedBy_perm {α : Type} (le : α → α → Bool) (x : α) (l : List α) :
    (insertSortedBy le x l).Perm (x :: l) := by
  induction l with
  | nil => exact List.Perm.refl _
  | cons y ys ih =>
    unfold insertSortedBy
    by_cases h : le x y = true
    · simp [h]
    · simp only [h, if_false]
      exact ((ih.cons y).trans (List.Perm.swap x y ys))

theorem sortBy_perm {α : Type} (le : α → α → Bool) (l : List α) :
    (sortBy le l).Perm l := by
  induction l with
  | nil => exact List.Perm.refl _
  | cons y ys ih =>
    unfold sortBy
    exact (insertSortedBy_perm le y (sortBy le ys)).trans (ih.cons y)

theorem setEqB_iff (l1 l2 : List String) :
    setEqB l1 l2 = true ↔ (∀ x, x ∈ l1 ↔ x ∈ l2) := by
  unfold setEqB
  simp only [Bool.and_eq_true, List.all_eq_true, decide_eq_true_eq]
  constructor
  · rintro ⟨h1, h2⟩ x
    exact ⟨fun hx => h1 x hx, fun hx => h2 x hx⟩
  · intro h
    exact ⟨fun x hx => (h x).1 hx, fun x hx => (h x).2 hx⟩

theorem setEqB_dedup_iff (l1 l2 : List String) :
    setEqB (dedupKeepFirst l1) (dedupKeepFirst l2) = true ↔ (∀ x, x ∈ l1 ↔ x ∈ l2) := by
  rw [setEqB_iff]
  constructor
  · intro h x
    have := h x
    rwa [mem_dedupKeepFirst, mem_dedupKeepFirst] at this
  · intro h x
    rw [mem_dedupKeepFirst, mem_dedupKeepFirst]
    exact h x

theorem pairKey_le (u v : String) : strLeB (pairKey u v).1 (pairKey u v).2 = true := by
  unfold pairKey
  by_cases h : strLeB u v = true
  · rw [if_pos h]; exact h
  · rw [if_neg (by simpa using h)]; exact strLeB_total h

theorem pair_set_eq {a b c d : String} (hab : strLeB a b = true) (hcd : strLeB c d = true)
    (h : ∀ x : String, x ∈ ([a, b] : List String) ↔ x ∈ ([c, d] : List String)) :
    a = c ∧ b = d := by
  have ha : a = c ∨ a = d := by
    have := (h a).1 (by simp)
    simpa using this
  have hb : b = c ∨ b = d := by
    have := (h b).1 (by simp)
    simpa using this
  have hc : c = a ∨ c = b := by
    have := (h c).2 (by simp)
    simpa using this
  have hd : d = a ∨ d = b := by
    have := (h d).2 (by simp)
    simpa using this
  have h1 : strLeB a c = true := by
    rcases hc with h' | h'
    · rw [h']; exact strLeB_refl a
    · rw [h']; exact hab
  have h2 : strLeB c a = true := by
    rcases ha with h' | h'
    · rw [h']; exact strLeB_refl c
    · rw [h']; exact hcd
  have h3 : strLeB b d = true := by
    rcases hb with h' | h'
    · rw [h']; exact hcd
    · rw [h']; exact strLeB_refl d
  have h4 : strLeB d b = true := by
    rcases hd with h' | h'
    · rw [h']; exact hab
    · rw [h']; exact strLeB_refl b
  exact ⟨strLeB_antisymm h1 h2, strLeB_antisymm h3 h4⟩

/-- Invariant of the `_partnerships` accumulator: keys are distinct sorted
pairs and each entry's partner list is exactly its key pair. -/
def PartnershipsInv (acc : List ((String × String) × UnionMeta)) : Prop :=
  (acc.map Prod.fst).Nodup ∧
    ∀ km ∈ acc, strLeB km.1.1 km.1.2 = true ∧ km.2.partners = [km.1.1, km.1.2]

theorem partnerships_fold_inv (edges : List (String × String × EdgeAttrs))
    (acc : List ((String × String) × UnionMeta)) (hacc : PartnershipsInv acc) :
    PartnershipsInv (edges.foldl
      (fun acc e =>
        if e.2.2.relation ∈ PARTNER_RELATIONS then
          let key := pairKey e.1 e.2.1
          match alookup key acc with
          | some _ =>
            aupdate key (fun m => { m with relations := insertUniq m.relations e.2.2.relation }) acc
          | none => acc ++ [(key, { partners := [key.1, key.2], relations := [e.2.2.relation] })]
        else acc)
      acc) := by
  induction edges generalizing acc with
  | nil => exact hacc
  | cons e rest ih =>
    simp only [List.foldl_cons]
    apply ih
    by_cases hrel : e.2.2.relation ∈ PARTNER_RELATIONS
    · simp only [if_pos hrel]
      cases hlk : alookup (pairKey e.1 e.2.1) acc with
      | some m =>
        refine ⟨?_, ?_⟩
        · rw [aupdate_map_fst]; exact hacc.1
        · intro km hkm
          rcases mem_aupdate _ hkm with hmem | ⟨q, hq, rfl⟩
          · exact hacc.2 km hmem
          · exact ⟨(hacc.2 q hq).1, (hacc.2 q hq).2⟩
      | none =>
        refine ⟨?_, ?_⟩
        · rw [List.map_append, List.map_singleton]
          apply List.Nodup.append hacc.1 (List.nodup_singleton _)
          intro k hk1 hk2
          rw [List.mem_singleton] at hk2
          subst hk2
          exact absurd hk1 ((alookup_eq_none_iff _ _).mp hlk)
        · intro km hkm
          rcases List.mem_append.mp hkm with hmem | hnew
          · exact hacc.2 km hmem
          · rw [List.mem_singleton] at hnew
            subst hnew
            exact ⟨pairKey_le _ _, rfl⟩
    · simpa [if_neg hrel] using hacc

theorem partnerships_inv (g : Graph) : PartnershipsInv (partnerships g) := by
  have hraw := partnerships_fold_inv g.edges [] ⟨List.nodup_nil, by simp⟩
  unfold partnerships
  constructor
  · rw [List.map_map]
    have : (Prod.fst ∘ fun km : (String × String) × UnionMeta =>
        (km.1, { km.2 with relations := sortBy strLe km.2.relations })) = Prod.fst := by
      funext km; rfl
    rw [this]
    exact hraw.1
  · intro km hkm
    rcases List.mem_map.mp hkm with ⟨km0, hkm0, heq⟩
    have h0 := hraw.2 km0 hkm0
    rw [← heq]
    exact ⟨h0.1, h0.2⟩

theorem map_congr_mem {α β : Type} {f g : α → β} {l : List α}
    (h : ∀ a ∈ l, f a = g a) : l.map f = l.map g := by
  induction l with
  | nil => rfl
  | cons hd tl ih =>
    simp only [List.map_cons]
    rw [h hd (List.mem_cons_self _ _), ih (fun a ha => h a (List.mem_cons_of_mem _ ha))]

theorem map_eq_self_mem {α : Type} {f : α → α} {l : List α}
    (h : ∀ a ∈ l, f a = a) : l.map f = l := by
  rw [map_congr_mem (g := fun a => a) h, List.map_id']

theorem pairwise_enumFrom {α : Type} {R : α → α → Prop} :
    ∀ (n : Nat) (l : List α), l.Pairwise R →
      (l.enumFrom n).Pairwise (fun a b => R a.2 b.2) := by
  intro n l
  induction l generalizing n with
  | nil => intro _; simp
  | cons hd tl ih =>
    intro hp
    rcases List.pairwise_cons.mp hp with ⟨hhd, htl⟩
    rw [List.enumFrom_cons, List.pairwise_cons]
    refine ⟨?_, ih (n + 1) htl⟩
    intro b hb
    have hsnd : b.2 ∈ tl := by
      have : b.2 ∈ (tl.enumFrom (n + 1)).map Prod.snd := List.mem_map.mpr ⟨b, hb, rfl⟩
      rwa [List.enumFrom_map_snd] at this
    exact hhd b.2 hsnd

/-- The relation "these two union entries have different partner sets". -/
def DistinctSets (x y : String × UnionEntry) : Prop :=
  ¬ (setEqB (dedupKeepFirst x.2.partners) (dedupKeepFirst y.2.partners) = true)

theorem buildUnions_entries (g : Graph) :
    ∀ ue ∈ buildUnions g, ue.2.children = [] ∧
      ∃ km ∈ partnerships g, ue.2.partners = [km.1.1, km.1.2] := by
  intro ue hue
  unfold buildUnions at hue
  rcases List.mem_map.mp hue with ⟨ie, hie, heq⟩
  have hsorted : ie.2 ∈ sortBy pairLe (partnerships g) := by
    have : ie.2 ∈ (List.enum (sortBy pairLe (partnerships g))).map Prod.snd :=
      List.mem_map.mpr ⟨ie, hie, rfl⟩
    rwa [List.enum_map_snd] at this
  have hpart : ie.2 ∈ partnerships g := (sortBy_perm pairLe (partnerships g)).mem_iff.mp hsorted
  subst heq
  exact ⟨rfl, ie.2, hpart, ((partnerships_inv g).2 ie.2 hpart).2⟩

theorem buildUnions_pairwise (g : Graph) : (buildUnions g).Pairwise DistinctSets := by
  have hinv := partnerships_inv g
  unfold buildUnions
  rw [List.pairwise_map]
  have hbase : (sortBy pairLe (partnerships g)).Pairwise (fun a b => a.1 ≠ b.1) := by
    have hnd : ((sortBy pairLe (partnerships g)).map Prod.fst).Nodup := by
      have hperm := (sortBy_perm pairLe (partnerships g)).map Prod.fst
      exact (List.Perm.nodup_iff hperm).mpr hinv.1
    exact List.pairwise_map.mp hnd
  have hshape : ∀ km ∈ sortBy pairLe (partnerships g),
      strLeB km.1.1 km.1.2 = true ∧ km.2.partners = [km.1.1, km.1.2] := by
    intro km hkm
    exact hinv.2 km ((sortBy_perm pairLe (partnerships g)).mem_iff.mp hkm)
  have hstrong : (sortBy pairLe (partnerships g)).Pairwise
      (fun a b => ¬ (setEqB (dedupKeepFirst a.2.partners) (dedupKeepFirst b.2.partners) = true)) := by
    refine hbase.imp_of_mem ?_
    intro a b ha hb hne hset
    obtain ⟨hle_a, hpa⟩ := hshape a ha
    obtain ⟨hle_b, hpb⟩ := hshape b hb
    rw [setEqB_dedup_iff, hpa, hpb] at hset
    obtain ⟨h1, h2⟩ := pair_set_eq hle_a hle_b hset
    exact hne (Prod.ext h1 h2)
  exact pairwise_enumFrom 0 _ hstrong

/-- The single-entry effect of `partner_lookup` + `unions[...]` update. -/
def attachFn (pset : List String) (child : String) (ue : String × UnionEntry) :
    String × UnionEntry :=
  if setEqB (dedupKeepFirst ue.2.partners) pset then
    (ue.1, { ue.2 with children := ue.2.children ++ [child] })
  else ue

theorem attachFn_partners (pset : List String) (child : String) (ue : String × UnionEntry) :
    ((attachFn pset child ue).2).partners = ue.2.partners := by
  unfold attachFn; split <;> rfl

theorem attachFn_fst (pset : List String) (child : String) (ue : String × UnionEntry) :
    (attachFn pset child ue).1 = ue.1 := by
  unfold attachFn; split <;> rfl

theorem attachChild_eq_map (pset : List String) (child : String) :
    ∀ (l : List (String × UnionEntry)), l.Pairwise DistinctSets →
      attachChild pset child l = l.map (attachFn pset child) := by
  intro l
  induction l with
  | nil => intro _; rfl
  | cons hd tl ih =>
    intro hpw
    rcases List.pairwise_cons.mp hpw with ⟨hhd, htl⟩
    obtain ⟨uid, e⟩ := hd
    by_cases hm : setEqB (dedupKeepFirst e.partners) pset = true
    · simp only [attachChild, if_pos hm, List.map_cons, attachFn, if_pos hm]
      congr 1
      symm
      apply map_eq_self_mem
      intro b hb
      unfold attachFn
      rw [if_neg]
      intro hb_match
      apply hhd b hb
      rw [setEqB_iff] at hm hb_match ⊢
      intro x
      exact (hm x).trans (hb_match x).symm
    · simp only [attachChild, if_neg hm, List.map_cons, attachFn, if_neg hm]
      rw [ih htl]

/-- The cumulative effect of the whole child-attachment loop on one union
entry: it gains every child of `pm` whose parent set matches its partner set. -/
def attachAll (pm : List (String × List String)) (ue : String × UnionEntry) :
    String × UnionEntry :=
  (ue.1,
    { ue.2 with
      children := ue.2.children ++
        (pm.filter
          (fun cp => setEqB (dedupKeepFirst ue.2.partners) (dedupKeepFirst cp.2))).map
          Prod.fst })

theorem fold_attach (pm : List (String × List String)) :
    ∀ (init : List (String × UnionEntry)), init.Pairwise DistinctSets →
      pm.foldl (fun acc cp => attachChild (dedupKeepFirst cp.2) cp.1 acc) init =
        init.map (attachAll pm) := by
  induction pm with
  | nil =>
    intro init _
    simp only [List.foldl_nil]
    symm
    apply map_eq_self_mem
    intro ue _
    simp [attachAll]
  | cons cp rest ih =>
    intro init hpw
    simp only [List.foldl_cons]
    rw [attachChild_eq_map _ _ init hpw]
    have hpw2 : (init.map (attachFn (dedupKeepFirst cp.2) cp.1)).Pairwise DistinctSets := by
      apply List.Pairwise.map _ _ hpw
      intro a b hab
      unfold DistinctSets
      rw [attachFn_partners, attachFn_partners]
      exact hab
    rw [ih _ hpw2, List.map_map]
    apply map_congr_mem
    intro ue _
    simp only [Function.comp_apply]
    unfold attachAll attachFn
    by_cases hm : setEqB (dedupKeepFirst ue.2.partners) (dedupKeepFirst cp.2) = true
    · simp only [if_pos hm, List.filter_cons, hm, List.map_cons, if_pos]
      simp [List.append_assoc]
    · simp [if_neg hm, List.filter_cons, hm]

theorem recordedParents_cons (pc : String × String × EdgeAttrs)
    (rest : List (String × String × EdgeAttrs)) (c : String) :
    recordedParents (pc :: rest) c =
      (if pc.2.1 = c then [pc.1] else []) ++ recordedParents rest c := by
  unfold recordedParents
  rw [List.filterMap_cons]
  by_cases h : pc.2.1 = c <;> simp [h]

theorem parentMap_fold_keys_nodup (pairs : List (String × String × EdgeAttrs)) :
    ∀ acc : List (String × List String), (acc.map Prod.fst).Nodup →
      ((pairs.foldl
        (fun acc pc =>
          match alookup pc.2.1 acc with
          | some _ => aupdate pc.2.1 (fun l => l ++ [pc.1]) acc
          | none => acc ++ [(pc.2.1, [pc.1])])
        acc).map Prod.fst).Nodup := by
  induction pairs with
  | nil => intro acc h; exact h
  | cons pc rest ih =>
    intro acc hacc
    simp only [List.foldl_cons]
    apply ih
    cases hl : alookup pc.2.1 acc with
    | some l => rw [aupdate_map_fst]; exact hacc
    | none =>
      rw [List.map_append, List.map_singleton]
      apply List.Nodup.append hacc (List.nodup_singleton _)
      intro k hk1 hk2
      rw [List.mem_singleton] at hk2
      subst hk2
      exact absurd hk1 ((alookup_eq_none_iff _ _).mp hl)

theorem parentMap_keys_nodup (pairs : List (String × String × EdgeAttrs)) :
    ((parentMap pairs).map Prod.fst).Nodup :=
  parentMap_fold_keys_nodup pairs [] List.nodup_nil

theorem parentMap_fold_alookup (pairs : List (String × String × EdgeAttrs)) :
    ∀ (acc : List (String × List String)) (c : String),
      alookup c (pairs.foldl
        (fun acc pc =>
          match alookup pc.2.1 acc with
          | some _ => aupdate pc.2.1 (fun l => l ++ [pc.1]) acc
          | none => acc ++ [(pc.2.1, [pc.1])])
        acc) =
        (match alookup c acc with
         | some l => some (l ++ recordedParents pairs c)
         | none =>
           if recordedParents pairs c = [] then none else some (recordedParents pairs c)) := by
  induction pairs with
  | nil =>
    intro acc c
    cases h : alookup c acc <;> simp [h, recordedParents]
  | cons pc rest ih =>
    intro acc c
    simp only [List.foldl_cons]
    rw [ih, recordedParents_cons]
    by_cases hc : pc.2.1 = c
    · rw [if_pos hc]
      cases hl : alookup pc.2.1 acc with
      | some l =>
        have hceq : alookup c acc = some l := by rw [← hc]; exact hl
        have hup : alookup c (aupdate pc.2.1 (fun l => l ++ [pc.1]) acc)
            = some (l ++ [pc.1]) := by
          rw [hc, alookup_aupdate_self, hceq]; rfl
        simp only [hup, hceq, List.append_assoc, List.singleton_append]
      | none =>
        have hceq : alookup c acc = none := by rw [← hc]; exact hl
        have hup : alookup c (acc ++ [(pc.2.1, [pc.1])]) = some [pc.1] := by
          rw [alookup_append, hceq]
          simp [alookup, hc, Option.orElse]
        simp only [hup, hceq, List.singleton_append]
        rw [if_neg (by simp)]
    · rw [if_neg hc]
      simp only [List.nil_append]
      cases hl : alookup pc.2.1 acc with
      | some l =>
        rw [alookup_aupdate_ne _ _ (fun hh => hc hh.symm)]
      | none =>
        have hone : alookup c ([(pc.2.1, [pc.1])] : List (String × List String)) = none := by
          simp [alookup, hc]
        rw [alookup_append, hone]
        cases h2 : alookup c acc <;> simp [Option.orElse]

theorem parentMap_alookup (pairs : List (String × String × EdgeAttrs)) (c : String) :
    alookup c (parentMap pairs) =
      if recordedParents pairs c = [] then none else some (recordedParents pairs c) := by
  have h := parentMap_fold_alookup pairs [] c
  simpa [alookup] using h

/-- **C5** (confirmed).  In the kinship-chart projection, a child id appears
in a union's children list iff the set of the child's recorded parents (over
all normalized parent→child arcs) is exactly the union's two partners; in
particular every attached child has both partners among its recorded parents,
so `union.children` is contained in the intersection of the two partners'
child sets. -/
theorem buildFamilyChart_children_iff (g : Graph) (uid : String) (e : UnionEntry)
    (child : String) (hmem : (uid, e) ∈ buildFamilyChartUnions g) :
    (child ∈ e.children ↔
      (parentsOf g child ≠ [] ∧ ∀ x, x ∈ parentsOf g child ↔ x ∈ e.partners)) ∧
    (child ∈ e.children → ∀ p ∈ e.partners, p ∈ parentsOf g child) := by
  have hiff : child ∈ e.children ↔
      (parentsOf g child ≠ [] ∧ ∀ x, x ∈ parentsOf g child ↔ x ∈ e.partners) := by
    unfold buildFamilyChartUnions at hmem
    rw [fold_attach _ _ (buildUnions_pairwise g)] at hmem
    rcases List.mem_map.mp hmem with ⟨ue0, hue0, heq⟩
    obtain ⟨hch0, km, hkm, hpartkm⟩ := buildUnions_entries g ue0 hue0
    have hsnd : e = (attachAll (parentMap (parentChildPairs g)) ue0).2 :=
      (congrArg Prod.snd heq).symm
    have hparte : e.partners = ue0.2.partners := by rw [hsnd]; rfl
    have hchild : e.children = ((parentMap (parentChildPairs g)).filter (fun cp => setEqB (dedupKeepFirst ue0.2.partners) (dedupKeepFirst cp.2))).map Prod.fst := by
      rw [hsnd]
      show ue0.2.children ++ _ = _
      rw [hch0, List.nil_append]
    rw [hchild, hparte]
    constructor
    · intro hin
      rcases List.mem_map.mp hin with ⟨cp, hcpf, hfst⟩
      rcases List.mem_filter.mp hcpf with ⟨hcp_pm, hpred⟩
      have hlk : alookup cp.1 (parentMap (parentChildPairs g)) = some cp.2 :=
        (mem_iff_alookup (parentMap_keys_nodup _)).mp hcp_pm
      rw [parentMap_alookup] at hlk
      by_cases hrp : recordedParents (parentChildPairs g) cp.1 = []
      · rw [if_pos hrp] at hlk
        cases hlk
      · rw [if_neg hrp] at hlk
        have hcp2 : cp.2 = recordedParents (parentChildPairs g) cp.1 :=
          (Option.some.inj hlk).symm
        subst hfst
        constructor
        · show parentsOf g cp.1 ≠ []
          simp only [parentsOf]
          exact hrp
        · intro x
          have hx2 := (setEqB_dedup_iff _ _).mp hpred x
          simp only [parentsOf, ← hcp2]
          exact hx2.symm
    · rintro ⟨hne, hiffx⟩
      have hne2 : recordedParents (parentChildPairs g) child ≠ [] := hne
      have hlk : alookup child (parentMap (parentChildPairs g)) =
          some (parentsOf g child) := by
        rw [parentMap_alookup, if_neg hne2]
        rfl
      have hmem2 : (child, parentsOf g child) ∈ parentMap (parentChildPairs g) :=
        (mem_iff_alookup (parentMap_keys_nodup _)).mpr hlk
      apply List.mem_map.mpr
      refine ⟨(child, parentsOf g child), List.mem_filter.mpr ⟨hmem2, ?_⟩, rfl⟩
      rw [setEqB_dedup_iff]
      exact fun x => (hiffx x).symm
  refine ⟨hiff, ?_⟩
  intro hin p hp
  exact ((hiff.mp hin).2 p).mpr hp

/-- Fixed provenance-only edge attributes used in concrete test graphs. -/
def mkEdgeAttrs (rel : String) : EdgeAttrs :=
  { relation := rel, pid := rel, source_system := "wikidata",
    evidence_url := "u", retrieved_at := "t" }

/-- Three-person household: A and B are spouses, C's father is A and C's
mother is B (father/mother edges point child→parent). -/
def gC5 : Graph :=
  { nodes := [("A", {}), ("B", {}), ("C", {})],
    edges := [("A", "B", mkEdgeAttrs "spouse"),
              ("C", "A", mkEdgeAttrs "father"),
              ("C", "B", mkEdgeAttrs "mother")] }

def uC5 : UnionEntry :=
  { uid := "union_1", partners := ["A", "B"], relations := ["spouse"], children := ["C"] }

/-- Witness for C5 at a concrete graph: the single union of `gC5` has exactly
child C attached, and the characterization applies to it. -/
theorem buildFamilyChart_children_iff_witness :
    ("union_1", uC5) ∈ buildFamilyChartUnions gC5 ∧
    (("C" ∈ uC5.children ↔
        (parentsOf gC5 "C" ≠ [] ∧ ∀ x, x ∈ parentsOf gC5 "C" ↔ x ∈ uC5.partners)) ∧
      ("C" ∈ uC5.children → ∀ p ∈ uC5.partners, p ∈ parentsOf gC5 "C")) :=
  ⟨by decide, buildFamilyChart_children_iff gC5 "union_1" uC5 "C" (by decide)⟩

/-!
## Hierarchy Annotator — `GraphBuilder._annotate_family_hierarchy`
(`src/wikinet/graph.py` lines 122-233).  Python dicts/sets are modelled as
insertion-ordered association lists / duplicate-free lists; set iteration
order, unspecified in CPython, is modelled as insertion order; the `while`
loops take explicit fuel that provably exceeds the number of iterations.
-/

/-- `adjacency.setdefault(u, set()).add(v)` / `peer_edges.setdefault(u, set()).add(v)`. -/
def addPeer (acc : List (String × List String)) (k v : String) : List (String × List String) :=
  match alookup k acc with
  | some _ => aupdate k (fun s => insertUniq s v) acc
  | none => acc ++ [(k, [v])]

/-- `parent_edges` (graph.py lines 156-163): `child` edges are parent→child,
`father`/`mother` edges are child→parent and get flipped. -/
def hierParentEdges (g : Graph) : List (String × String) :=
  g.edges.filterMap (fun e =>
    if e.2.2.relation = "child" then some (e.1, e.2.1)
    else if e.2.2.relation = "father" ∨ e.2.2.relation = "mother" then some (e.2.1, e.1)
    else none)

/-- `peer_edges` (graph.py lines 164-166): symmetric adjacency over
spouse/sibling/partner/relative edges. -/
def hierPeerEdges (g : Graph) : List (String × List String) :=
  g.edges.foldl
    (fun acc e =>
      if e.2.2.relation ∈ ["spouse", "sibling", "partner", "relative"] then
        addPeer (addPeer acc e.1 e.2.1) e.2.1 e.1
      else acc)
    []

/-- `adjacency` (graph.py lines 150-154): all graph nodes, plus symmetric
adjacency over every family-relation edge. -/
def familyAdjacency (g : Graph) : List (String × List String) :=
  g.edges.foldl
    (fun acc e =>
      if e.2.2.relation ∈ FAMILY_RELATIONS then
        addPeer (addPeer acc e.1 e.2.1) e.2.1 e.1
      else acc)
    (g.nodeIds.map (fun n => (n, ([] : List String))))

/-- Does any edge carry a family relation? (graph.py lines 134-139). -/
def hasFamilyEdge (g : Graph) : Bool :=
  g.edges.any (fun e => decide (e.2.2.relation ∈ FAMILY_RELATIONS))

/-- The BFS of `compute_levels` (graph.py lines 194-204): FIFO queue of
`(node, level)`, first assignment wins, children enqueued one level down,
peers on the same level. -/
def levelsBFS (children peers : List (String × List String)) :
    Nat → List (String × Nat) → List (String × Nat) → List (String × Nat)
  | _, [], levels => levels
  | 0, _ :: _, levels => levels
  | fuel + 1, (n, lvl) :: rest, levels =>
    match alookup n levels with
    | some _ => levelsBFS children peers fuel rest levels
    | none =>
      levelsBFS children peers fuel
        (rest ++ ((alookup n children).getD []).map (fun c => (c, lvl + 1))
              ++ ((alookup n peers).getD []).map (fun p => (p, lvl)))
        (levels ++ [(n, lvl)])

/-- The `children`/`incoming` dict pair built by `compute_levels` from the
global arc list restricted to the component (graph.py lines 177-184). -/
def clChildrenIncoming (nodes : List String) (parentEdges : List (String × String)) :
    List (String × List String) × List (String × Nat) :=
  parentEdges.foldl
    (fun (st : List (String × List String) × List (String × Nat)) pc =>
      if pc.1 ∈ nodes ∧ pc.2 ∈ nodes then
        (aupdate pc.1 (fun l => l ++ [pc.2]) st.1, aupdate pc.2 (fun k => k + 1) st.2)
      else st)
    (nodes.map (fun n => (n, ([] : List String))), nodes.map (fun n => (n, 0)))

def clChildren (nodes : List String) (parentEdges : List (String × String)) :
    List (String × List String) :=
  (clChildrenIncoming nodes parentEdges).1

/-- `roots` / `frontier` selection (graph.py lines 186-193): in-component
parents with zero incoming arcs, else all zero-indegree nodes, else every
node of the component. -/
def clFrontier (nodes : List String) (parentEdges : List (String × String)) :
    List String :=
  let incoming := (clChildrenIncoming nodes parentEdges).2
  let roots := dedupKeepFirst ((parentEdges.filter
    (fun pc => decide (pc.1 ∈ nodes) && decide ((alookup pc.1 incoming).getD 0 = 0))).map
      Prod.fst)
  let frontier0 := if roots.isEmpty then (incoming.filter (fun p => p.2 == 0)).map Prod.fst
    else roots
  if frontier0.isEmpty then nodes else frontier0

/-- `for node in nodes: levels.setdefault(node, 0)` (graph.py lines 205-206). -/
def setdefaultZero (nodes : List String) (levels : List (String × Nat)) :
    List (String × Nat) :=
  nodes.foldl (fun acc n => if alookup n acc = none then acc ++ [(n, 0)] else acc) levels

/-- BFS fuel: bounds the total number of queue entries ever enqueued
(initial frontier + one child push per arc + one peer push per
peer-adjacency entry), so the while loop always drains its queue. -/
def clFuel (nodes : List String) (parentEdges : List (String × String))
    (peers : List (String × List String)) : Nat :=
  (clFrontier nodes parentEdges).length + parentEdges.length +
    peers.foldl (fun a p => a + p.2.length) 0 + 1

/-- `compute_levels` (graph.py lines 176-207), parameterized by the
component's nodes, the global normalized parent arcs, and the peer
adjacency. -/
def computeLevels (nodes : List String) (parentEdges : List (String × String))
    (peers : List (String × List String)) : List (String × Nat) :=
  setdefaultZero nodes
    (levelsBFS (clChildren nodes parentEdges) peers (clFuel nodes parentEdges peers)
      ((clFrontier nodes parentEdges).map (fun n => (n, 0))) [])

/-- The component DFS (graph.py lines 215-223): `stack.pop()` pops the last
element and `stack.extend(xs)` appends, so a push step is `xs.reverse ++ rest`
on a head-popped stack.  Returns the updated visited set and the component. -/
def dfsLoop (adj : List (String × List String)) :
    Nat → List String → List String → List String → List String × List String
  | 0, _, visited, comp => (visited, comp)
  | fuel + 1, stack, visited, comp =>
    match stack with
    | [] => (visited, comp)
    | current :: rest =>
      if current ∈ visited then dfsLoop adj fuel rest visited comp
      else dfsLoop adj fuel (((alookup current adj).getD []).reverse ++ rest)
        (visited ++ [current]) (comp ++ [current])

/-- `annotate_node` + the level write (graph.py lines 168-174 and 226-233)
applied to every member of one component. -/
def annotateMembers (g : Graph) (clusterId : String) (levels : List (String × Nat))
    (members : List String) : Graph :=
  members.foldl
    (fun g m =>
      g.addNodeWith m (fun a =>
        { a with clusters := sortBy strLe (insertUniq (dedupKeepFirst a.clusters) clusterId),
                 familyLevel := alookup m levels }))
    g

/-- The component loop of `_annotate_family_hierarchy` (graph.py lines
209-233): walk the adjacency keys, skip visited or isolated nodes, collect
each component by DFS, compute its levels and annotate its members. -/
def annotateLoop (adj : List (String × List String))
    (parentEdges : List (String × String)) (peers : List (String × List String))
    (dfsFuel : Nat) :
    List String → List String → Nat → Graph → Graph
  | [], _, _, acc => acc
  | node :: restKeys, visited, idx, acc =>
    if node ∈ visited ∨ ((alookup node adj).getD []).isEmpty = true then
      annotateLoop adj parentEdges peers dfsFuel restKeys visited idx acc
    else
      let vc := dfsLoop adj dfsFuel [node] visited []
      let levels := computeLevels vc.2 parentEdges peers
      let clusterId := "royal_family_" ++ toString (idx + 1)
      annotateLoop adj parentEdges peers dfsFuel restKeys vc.1 (idx + 1)
        (annotateMembers acc clusterId levels vc.2)

/-- `GraphBuilder._annotate_family_hierarchy` (graph.py lines 122-233):
no-op without family edges, else cluster + level annotation per family
component.  The DFS fuel bounds the total number of stack entries ever
pushed (one initial node + one per adjacency-list entry). -/
def annotateFamilyHierarchy (g : Graph) : Graph :=
  if hasFamilyEdge g then
    let adj := familyAdjacency g
    let adjSize := adj.foldl (fun a p => a + p.2.length) 0
    annotateLoop adj (hierParentEdges g) (hierPeerEdges g) (adjSize + adj.length + 1)
      (adj.map Prod.fst) [] 0 g
  else g

/-- Where a node's level can come from, relative to a level table `lv`:
the node is a BFS seed or defaulted node (level 0), or it inherits
`parent level + 1` across some in-component normalized arc, or it copies the
level of some peer-adjacent node. -/
def OriginProp (E : List (String × String)) (nodes : List String)
    (peers : List (String × List String)) (lv : List (String × Nat))
    (n : String) (L : Nat) : Prop :=
  L = 0 ∨
  (∃ p Lp, (p, n) ∈ E ∧ p ∈ nodes ∧ n ∈ nodes ∧ alookup p lv = some Lp ∧ L = Lp + 1) ∨
  (∃ q Lq, n ∈ (alookup q peers).getD [] ∧ alookup q lv = some Lq ∧ L = Lq)

theorem OriginProp.mono {E : List (String × String)} {nodes : List String}
    {peers : List (String × List String)} {lv lv2 : List (String × Nat)}
    {n : String} {L : Nat} (h : OriginProp E nodes peers lv n L)
    (hext : ∀ k x, alookup k lv = some x → alookup k lv2 = some x) :
    OriginProp E nodes peers lv2 n L := by
  rcases h with h0 | ⟨p, Lp, hE, hp, hn, hlk, hL⟩ | ⟨q, Lq, hq, hlk, hL⟩
  · exact Or.inl h0
  · exact Or.inr (Or.inl ⟨p, Lp, hE, hp, hn, hext p Lp hlk, hL⟩)
  · exact Or.inr (Or.inr ⟨q, Lq, hq, hext q Lq hlk, hL⟩)

theorem children_fold_sound (nodes : List String) (E : List (String × String)) :
    ∀ (l : List (String × String))
      (st : List (String × List String) × List (String × Nat)),
      (∀ pc ∈ l, pc ∈ E) →
      (∀ p c, c ∈ (alookup p st.1).getD [] → (p, c) ∈ E ∧ p ∈ nodes ∧ c ∈ nodes) →
      ∀ p c, c ∈ (alookup p (l.foldl
        (fun (st : List (String × List String) × List (String × Nat)) pc =>
          if pc.1 ∈ nodes ∧ pc.2 ∈ nodes then
            (aupdate pc.1 (fun l => l ++ [pc.2]) st.1, aupdate pc.2 (fun k => k + 1) st.2)
          else st)
        st).1).getD [] → (p, c) ∈ E ∧ p ∈ nodes ∧ c ∈ nodes := by
  intro l
  induction l with
  | nil => intro st _ hst p c hc; exact hst p c hc
  | cons pc rest ih =>
    intro st hsub hst p c hc
    simp only [List.foldl_cons] at hc
    by_cases hcond : pc.1 ∈ nodes ∧ pc.2 ∈ nodes
    · rw [if_pos hcond] at hc
      refine ih _ (fun x hx => hsub x (List.mem_cons_of_mem _ hx)) ?_ p c hc
      intro p2 c2 hc2
      by_cases hp2 : p2 = pc.1
      · rw [hp2, alookup_aupdate_self] at hc2
        cases hold : alookup pc.1 st.1 with
        | none => rw [hold] at hc2; simp at hc2
        | some ol =>
          rw [hold] at hc2
          simp at hc2
          rcases hc2 with hmem | rfl
          · refine hst p2 c2 ?_
            rw [hp2, hold]
            exact hmem
          · rw [hp2]
            exact ⟨hsub pc (List.mem_cons_self _ _), hcond.1, hcond.2⟩
      · rw [alookup_aupdate_ne _ _ hp2] at hc2
        exact hst p2 c2 hc2
    · rw [if_neg hcond] at hc
      exact ih _ (fun x hx => hsub x (List.mem_cons_of_mem _ hx)) hst p c hc

theorem alookup_map_nil (p2 : String) (ns : List String) :
    alookup p2 (ns.map (fun n => (n, ([] : List String)))) = none ∨
    alookup p2 (ns.map (fun n => (n, ([] : List String)))) = some [] := by
  induction ns with
  | nil => exact Or.inl rfl
  | cons hd tl ih =>
    by_cases h : hd = p2
    · exact Or.inr (by simp [alookup, h])
    · simpa [alookup, h] using ih

theorem clChildren_sound (nodes : List String) (E : List (String × String)) :
    ∀ p c, c ∈ (alookup p (clChildren nodes E)).getD [] →
      (p, c) ∈ E ∧ p ∈ nodes ∧ c ∈ nodes := by
  intro p c hc
  apply children_fold_sound nodes E E _ (fun pc h => h) _ p c hc
  intro p2 c2 hc2
  rcases alookup_map_nil p2 nodes with h | h <;> rw [h] at hc2 <;> simp at hc2

theorem alookup_append_left {α β : Type} [DecidableEq α] {k : α} {x : β}
    {l1 : List (α × β)} (l2 : List (α × β)) (h : alookup k l1 = some x) :
    alookup k (l1 ++ l2) = some x := by
  rw [alookup_append, h]; rfl

theorem alookup_append_right {α β : Type} [DecidableEq α] {k : α}
    {l1 : List (α × β)} (l2 : List (α × β)) (h : alookup k l1 = none) :
    alookup k (l1 ++ l2) = alookup k l2 := by
  rw [alookup_append, h]; rfl

theorem levelsBFS_mono (children peers : List (String × List String)) :
    ∀ (fuel : Nat) (queue : List (String × Nat)) (lv : List (String × Nat))
      (k : String) (x : Nat), alookup k lv = some x →
      alookup k (levelsBFS children peers fuel queue lv) = some x := by
  intro fuel
  induction fuel with
  | zero =>
    intro queue lv k x h
    cases queue with
    | nil => exact h
    | cons e rest => exact h
  | succ fuel ih =>
    intro queue lv k x h
    cases queue with
    | nil => exact h
    | cons e rest =>
      obtain ⟨m, lvl⟩ := e
      simp only [levelsBFS]
      cases hm : alookup m lv with
      | some y => exact ih rest lv k x h
      | none => exact ih _ _ k x (alookup_append_left _ h)

theorem levelsBFS_origin (children peers : List (String × List String))
    (E : List (String × String)) (nodes : List String)
    (hch : ∀ p c, c ∈ (alookup p children).getD [] → (p, c) ∈ E ∧ p ∈ nodes ∧ c ∈ nodes) :
    ∀ (fuel : Nat) (queue : List (String × Nat)) (lv : List (String × Nat)),
      (∀ e ∈ queue, OriginProp E nodes peers lv e.1 e.2) →
      (∀ n L, alookup n lv = some L → OriginProp E nodes peers lv n L) →
      ∀ n L, alookup n (levelsBFS children peers fuel queue lv) = some L →
        OriginProp E nodes peers (levelsBFS children peers fuel queue lv) n L := by
  intro fuel
  induction fuel with
  | zero =>
    intro queue lv _ hl n L h
    cases queue with
    | nil => simp only [levelsBFS] at h ⊢; exact hl n L h
    | cons e rest => simp only [levelsBFS] at h ⊢; exact hl n L h
  | succ fuel ih =>
    intro queue lv hq hl n L h
    cases queue with
    | nil => simp only [levelsBFS] at h ⊢; exact hl n L h
    | cons e rest =>
      obtain ⟨m, lvl⟩ := e
      simp only [levelsBFS] at h ⊢
      cases hm : alookup m lv with
      | some y =>
        rw [hm] at h
        exact ih rest lv (fun e he => hq e (List.mem_cons_of_mem _ he)) hl n L h
      | none =>
        rw [hm] at h
        have hext : ∀ k x, alookup k lv = some x →
            alookup k (lv ++ [(m, lvl)]) = some x := by
          intro k x hk
          exact alookup_append_left _ hk
        have hmlv : alookup m (lv ++ [(m, lvl)]) = some lvl := by
          rw [alookup_append_right _ hm]
          simp [alookup]
        apply ih _ _ ?_ ?_ n L h
        · intro e he
          rcases List.mem_append.mp he with he1 | he2
          · rcases List.mem_append.mp he1 with hrest | hchild
            · exact (hq e (List.mem_cons_of_mem _ hrest)).mono hext
            · rcases List.mem_map.mp hchild with ⟨c, hc, rfl⟩
              obtain ⟨hE, hpn, hcn⟩ := hch m c hc
              exact Or.inr (Or.inl ⟨m, lvl, hE, hpn, hcn, hmlv, rfl⟩)
          · rcases List.mem_map.mp he2 with ⟨q', hq', rfl⟩
            exact Or.inr (Or.inr ⟨m, lvl, hq', hmlv, rfl⟩)
        · intro n2 L2 h2
          cases hn2 : alookup n2 lv with
          | some y =>
            rw [alookup_append_left _ hn2] at h2
            have hyx := Option.some.inj h2
            subst hyx
            exact (hl n2 y hn2).mono hext
          | none =>
            rw [alookup_append_right _ hn2] at h2
            by_cases hmn : m = n2
            · have hL2 : lvl = L2 := by
                simp only [alookup, if_pos hmn] at h2
                exact Option.some.inj h2
              subst hmn
              subst hL2
              exact ((hq (m, lvl) (List.mem_cons_self _ _)).mono hext)
            · simp only [alookup, if_neg hmn] at h2
              cases h2

theorem setdefaultZero_cases (nodes : List String) :
    ∀ (levels : List (String × Nat)) (n : String) (L : Nat),
      alookup n (setdefaultZero nodes levels) = some L →
      alookup n levels = some L ∨ L = 0 := by
  unfold setdefaultZero
  induction nodes with
  | nil => intro levels n L h; exact Or.inl h
  | cons hd tl ih =>
    intro levels n L h
    simp only [List.foldl_cons] at h
    by_cases hl : alookup hd levels = none
    · rw [if_pos hl] at h
      rcases ih _ n L h with hmem | h0
      · cases hn : alookup n levels with
        | some y =>
          rw [alookup_append_left _ hn] at hmem
          have hyx := Option.some.inj hmem
          subst hyx
          exact Or.inl rfl
        | none =>
          rw [alookup_append_right _ hn] at hmem
          by_cases hdn : hd = n
          · simp only [alookup, if_pos hdn] at hmem
            exact Or.inr (Option.some.inj hmem).symm
          · simp only [alookup, if_neg hdn] at hmem
            cases hmem
      · exact Or.inr h0
    · rw [if_neg hl] at h
      exact ih _ n L h

theorem setdefaultZero_ext (nodes : List String) :
    ∀ (levels : List (String × Nat)) (k : String) (x : Nat),
      alookup k levels = some x → alookup k (setdefaultZero nodes levels) = some x := by
  unfold setdefaultZero
  induction nodes with
  | nil => intro levels k x h; exact h
  | cons hd tl ih =>
    intro levels k x h
    simp only [List.foldl_cons]
    by_cases hl : alookup hd levels = none
    · rw [if_pos hl]
      apply ih
      rw [alookup_append, h]
      rfl
    · rw [if_neg hl]
      exact ih _ k x h

/-- **C2** (amended).  Every level assigned by `compute_levels` is either 0
(a BFS seed or an unreached node defaulted by the final `setdefault` pass),
or is inherited through some in-component normalized parent arc
(`level = parent's level + 1`), or copies the level of some peer-adjacent
node.  The per-arc equalities of the original claim hold only along the arcs
by which the BFS first discovers a node (see the counterexample). -/
theorem computeLevels_origin (nodes : List String) (E : List (String × String))
    (peers : List (String × List String)) (n : String) (L : Nat)
    (h : alookup n (computeLevels nodes E peers) = some L) :
    L = 0 ∨
    (∃ p Lp, (p, n) ∈ E ∧ p ∈ nodes ∧ n ∈ nodes ∧
      alookup p (computeLevels nodes E peers) = some Lp ∧ L = Lp + 1) ∨
    (∃ q Lq, n ∈ (alookup q peers).getD [] ∧
      alookup q (computeLevels nodes E peers) = some Lq ∧ L = Lq) := by
  unfold computeLevels at h
  rcases setdefaultZero_cases nodes _ n L h with hin | h0
  · have horigin := levelsBFS_origin (clChildren nodes E) peers E nodes
      (clChildren_sound nodes E) (clFuel nodes E peers)
      ((clFrontier nodes E).map (fun n => (n, 0))) []
      (by
        intro e he
        rcases List.mem_map.mp he with ⟨x, _, rfl⟩
        exact Or.inl rfl)
      (by intro n2 L2 h2; cases h2)
      n L hin
    have hext := setdefaultZero_ext nodes
      (levelsBFS (clChildren nodes E) peers (clFuel nodes E peers)
        ((clFrontier nodes E).map (fun n => (n, 0))) [])
    exact horigin.mono (fun k x hk => hext k x hk)
  · exact Or.inl h0

/-- The annotated hierarchy level of a node. -/
def levelOf (g : Graph) (n : String) : Option Nat :=
  ((alookup n g.nodes).getD {}).familyLevel

/-- The annotated cluster list of a node. -/
def clustersOf (g : Graph) (n : String) : List String :=
  ((alookup n g.nodes).getD {}).clusters

/-- Spec scenario graph: `A —father→ B, B —spouse↔— C`. -/
def gC3 : Graph :=
  { nodes := [("A", {}), ("B", {}), ("C", {})],
    edges := [("A", "B", mkEdgeAttrs "father"), ("B", "C", mkEdgeAttrs "spouse")] }

/-- **C3 counterexample.**  On the claimed scenario the annotator assigns
`A.level = 1`, not 0: the `father` edge `A → B` is normalized with its
*target* as the parent (graph.py line 162: `parent_edges.append((v, u))`),
so B is the root.  Hence the claimed assignment `A=0, B=1, C=1` is false. -/
theorem annotate_father_scenario_counterexample :
    levelOf (annotateFamilyHierarchy gC3) "A" = some 1 ∧
    ¬ (levelOf (annotateFamilyHierarchy gC3) "A" = some 0 ∧
       levelOf (annotateFamilyHierarchy gC3) "B" = some 1 ∧
       levelOf (annotateFamilyHierarchy gC3) "C" = some 1) := by
  constructor
  · rfl
  · intro hcl
    have := hcl.1
    simp [show levelOf (annotateFamilyHierarchy gC3) "A" = some 1 from rfl] at this

/-- **C3** (amended).  For the graph `A —father→ B, B —spouse↔— C`,
hierarchy annotation assigns `A.level = 1`, `B.level = 0`, `C.level = 0`
(father/mother edges are normalized target-as-parent, so B — A's father —
is the generation root and the spouse edge keeps C on B's level), and
A, B, C each carry exactly one and the same cluster id. -/
theorem annotate_father_scenario :
    levelOf (annotateFamilyHierarchy gC3) "A" = some 1 ∧
    levelOf (annotateFamilyHierarchy gC3) "B" = some 0 ∧
    levelOf (annotateFamilyHierarchy gC3) "C" = some 0 ∧
    clustersOf (annotateFamilyHierarchy gC3) "A" = ["royal_family_1"] ∧
    clustersOf (annotateFamilyHierarchy gC3) "B" = ["royal_family_1"] ∧
    clustersOf (annotateFamilyHierarchy gC3) "C" = ["royal_family_1"] :=
  ⟨rfl, rfl, rfl, rfl, rfl, rfl⟩

/-- Diamond family: G is a parent of P and of C, and P is a parent of C
(`child` edges point parent→child). -/
def gC2 : Graph :=
  { nodes := [("G", {}), ("P", {}), ("C", {})],
    edges := [("G", "P", mkEdgeAttrs "child"), ("G", "C", mkEdgeAttrs "child"),
              ("P", "C", mkEdgeAttrs "child")] }

/-- **C2 counterexample.**  In the diamond graph all three nodes land in the
same cluster and `(P, C)` is a normalized in-cluster parent→child arc, yet
the annotator assigns `P.level = 1` and `C.level = 1`: BFS first discovers C
directly from the root G, so `C.level ≠ P.level + 1`. -/
theorem annotate_levels_counterexample :
    ("P", "C") ∈ hierParentEdges gC2 ∧
    clustersOf (annotateFamilyHierarchy gC2) "P" = ["royal_family_1"] ∧
    clustersOf (annotateFamilyHierarchy gC2) "C" = ["royal_family_1"] ∧
    levelOf (annotateFamilyHierarchy gC2) "P" = some 1 ∧
    levelOf (annotateFamilyHierarchy gC2) "C" = some 1 ∧
    ¬ (levelOf (annotateFamilyHierarchy gC2) "C" =
        (levelOf (annotateFamilyHierarchy gC2) "P").map (fun l => l + 1)) := by
  refine ⟨by decide, rfl, rfl, rfl, rfl, ?_⟩
  intro hcl
  rw [show levelOf (annotateFamilyHierarchy gC2) "C" = some 1 from rfl,
    show levelOf (annotateFamilyHierarchy gC2) "P" = some 1 from rfl] at hcl
  simp at hcl

/-- Witness for C2's amended theorem on a concrete component:
`computeLevels ["A", "B"] [("B", "A")] [] = [("B", 0), ("A", 1)]`, and A's
level 1 indeed originates from the arc `(B, A)` with B at level 0. -/
theorem computeLevels_origin_witness :
    alookup "A" (computeLevels ["A", "B"] [("B", "A")] []) = some 1 ∧
    (1 = 0 ∨
    (∃ p Lp, (p, "A") ∈ [("B", "A")] ∧ p ∈ ["A", "B"] ∧ "A" ∈ ["A", "B"] ∧
      alookup p (computeLevels ["A", "B"] [("B", "A")] []) = some Lp ∧ 1 = Lp + 1) ∨
    (∃ q Lq, "A" ∈ (alookup q ([] : List (String × List String))).getD [] ∧
      alookup q (computeLevels ["A", "B"] [("B", "A")] []) = some Lq ∧ 1 = Lq)) :=
  ⟨rfl, computeLevels_origin ["A", "B"] [("B", "A")] [] "A" 1 rfl⟩

/-!
## Crawl Engine — `GraphBuilder.crawl` (`src/wikinet/graph.py` lines 235-317)

The collaborators (resolver, Wikidata relation/label source, Wikipedia
infobox source) are pure functions, per their interface contracts (spec §6).
The `government_index` optional collaborator is absent (`None`), which
disables the three code paths guarded by `if self.government_index`.
`console.log`/`logger.debug` calls are output-only and not modelled.  The
`while` queue loop takes explicit fuel; a run that drains its queue (or
stops at a growth cap) is a completed crawl.  Two ghost logs record which
ids were passed to `fetch_relations` and for which ids the infobox fallback
ran.
-/

/-- `schemas.Edge` (`src/wikinet/schemas.py` lines 20-31). -/
structure Edge where
  source : String
  target : String
  relation : String
  pid : String
  source_system : String
  evidence_url : String
  retrieved_at : String
  data : List (String × String) := []
deriving DecidableEq

/-- `edge.dict()` restricted to the attribute fields stored on the graph. -/
def Edge.attrs (e : Edge) : EdgeAttrs :=
  { relation := e.relation, pid := e.pid, source_system := e.source_system,
    evidence_url := e.evidence_url, retrieved_at := e.retrieved_at, data := e.data }

/-- One entry of the `fetch_labels` result (`{label, description}`). -/
structure LabelInfo where
  label : Option String := none
  description : Option String := none
deriving DecidableEq

/-- One infobox payload of `WikipediaClient.extract_edges`
(`src/wikinet/wikipedia.py` lines 65-75). -/
structure InfoPayload where
  value : String
  source_system : String
  evidence_url : String
  retrieved_at : String
deriving DecidableEq

/-- The `GraphBuilder` configuration; `maxNodes`/`maxEdges` equal to 0 model
Python's falsy `None`/`0` (cap disabled, as in `_should_continue`). -/
structure CrawlCfg where
  includeFamily : Bool := true
  includePolitical : Bool := true
  maxDepth : Nat := 1
  maxNodes : Nat := 0
  maxEdges : Nat := 0
deriving DecidableEq

/-- The crawl's external collaborators as pure functions. -/
structure Collaborators where
  fetchRelations : String → List Edge
  fetchLabels : String → LabelInfo
  extractEdges : String → Except String (List (String × InfoPayload))

/-- `GraphBuilder._should_continue` (graph.py lines 97-102). -/
def shouldContinue (cfg : CrawlCfg) (g : Graph) : Bool :=
  (cfg.maxNodes == 0 || decide (g.nodes.length < cfg.maxNodes)) &&
  (cfg.maxEdges == 0 || decide (g.edges.length < cfg.maxEdges))

/-- `Counter` increment. -/
def bumpCount {α : Type} [DecidableEq α] (l : List (α × Nat)) (k : α) : List (α × Nat) :=
  match alookup k l with
  | some _ => aupdate k (fun n => n + 1) l
  | none => l ++ [(k, 1)]

/-- The mutable state of one crawl run: queue, visited set, graph, the
`CrawlStats` counters, the break flag, and two ghost logs. -/
structure CrawlState where
  queue : List (String × Nat) := []
  visited : List String := []
  graph : Graph := {}
  expandedNodes : Nat := 0
  depthHist : List (Nat × Nat) := []
  relationCounts : List (String × Nat) := []
  infoboxEdges : Nat := 0
  warnings : List String := []
  fetchLog : List String := []
  infoboxLog : List String := []
  broke : Bool := false
deriving DecidableEq

/-- The edge-adding loop with its mid-loop growth-cap break
(graph.py lines 276-284). -/
def addEdgesLoop (cfg : CrawlCfg) :
    List Edge → Graph → List (String × Nat) → Graph × List (String × Nat)
  | [], g, rc => (g, rc)
  | e :: es, g, rc =>
    let rc2 := bumpCount rc e.relation
    let g2 := g.addEdge e.source e.target e.attrs
    if cfg.maxEdges != 0 && decide (cfg.maxEdges ≤ g2.edges.length) then (g2, rc2)
    else addEdgesLoop cfg es g2 rc2

/-- `neighbor_ids | {qid}` (graph.py line 257): the Python set is modelled as
the first-occurrence order of targets, sources, then the id itself (set
iteration order is unspecified in CPython and irrelevant to the properties
proved here). -/
def nodeBatch (edges : List Edge) (qid : String) : List String :=
  dedupKeepFirst (edges.map Edge.target ++ edges.map Edge.source ++ [qid])

/-- The node-adding loop (graph.py lines 263-269). -/
def addBatchNodes (col : Collaborators) (batch : List String) (g : Graph) : Graph :=
  batch.foldl
    (fun g nid =>
      g.addNodeWith nid (fun a =>
        { a with label := some ((col.fetchLabels nid).label.getD nid),
                 description := (col.fetchLabels nid).description }))
    g

/-- `f"{qid}:{relation}:{target_label}"[:64]` (graph.py line 292). -/
def tempId (qid rel value : String) : String :=
  String.mk ((qid ++ ":" ++ rel ++ ":" ++ value).data.take 64)

/-- The attributes of a synthetic infobox fallback edge (graph.py 294-303). -/
def infoboxAttrs (rel : String) (p : InfoPayload) : EdgeAttrs :=
  { relation := rel, pid := rel, source_system := p.source_system,
    evidence_url := p.evidence_url, retrieved_at := p.retrieved_at,
    data := [("note", "infobox")] }

/-- The placeholder node/edge loop of the infobox fallback
(graph.py lines 290-304). -/
def addInfoboxItems (qid : String) :
    List (String × InfoPayload) → Graph → Nat → Graph × Nat
  | [], g, cnt => (g, cnt)
  | (rel, p) :: rest, g, cnt =>
    let tid := tempId qid rel p.value
    let g2 := g.addNodeWith tid (fun a =>
      { a with label := some p.value, description := some "infobox placeholder" })
    let g3 := g2.addEdge qid tid (infoboxAttrs rel p)
    addInfoboxItems qid rest g3 (cnt + 1)

/-- The warning string appended on a fallback failure (graph.py line 306). -/
def infoWarning (qid exc : String) : String :=
  "Infobox fallback failed for " ++ qid ++ ": " ++ exc

/-- The display title used for the fallback lookup (graph.py line 288). -/
def titleOf (col : Collaborators) (qid : String) : String :=
  (col.fetchLabels qid).label.getD qid

/-- Expansion of one dequeued id: stats, relation fetch, node/edge insertion,
infobox fallback, neighbor enqueueing (graph.py lines 253-312). -/
def expandStep (cfg : CrawlCfg) (col : Collaborators) (qid : String) (depth : Nat)
    (st : CrawlState) : CrawlState :=
  let st := { st with expandedNodes := st.expandedNodes + 1,
                      depthHist := bumpCount st.depthHist depth,
                      fetchLog := st.fetchLog ++ [qid] }
  let edges := col.fetchRelations qid
  let g1 := addBatchNodes col (nodeBatch edges qid) st.graph
  let gr := addEdgesLoop cfg edges g1 st.relationCounts
  let st := { st with graph := gr.1, relationCounts := gr.2 }
  let st :=
    if cfg.includeFamily then
      let st := { st with infoboxLog := st.infoboxLog ++ [qid] }
      match col.extractEdges (titleOf col qid) with
      | .error exc => { st with warnings := st.warnings ++ [infoWarning qid exc] }
      | .ok items =>
        let gi := addInfoboxItems qid items st.graph st.infoboxEdges
        { st with graph := gi.1, infoboxEdges := gi.2 }
    else st
  if decide (depth < cfg.maxDepth) then
    { st with queue := st.queue ++ edges.filterMap (fun e =>
        if e.target ∉ st.visited ∧ shouldContinue cfg st.graph = true then
          some (e.target, depth + 1)
        else none) }
  else st

/-- One iteration of the crawl's `while queue:` loop (graph.py 244-312):
pop, skip visited, mark visited, skip past-depth ids, stop at growth caps,
else expand. -/
def crawlStep (cfg : CrawlCfg) (col : Collaborators) (st : CrawlState) : CrawlState :=
  match st.queue with
  | [] => st
  | (qid, depth) :: rest =>
    let st := { st with queue := rest }
    if qid ∈ st.visited then st
    else
      let st := { st with visited := st.visited ++ [qid] }
      if decide (cfg.maxDepth < depth) then st
      else if shouldContinue cfg st.graph = false then { st with broke := true }
      else expandStep cfg col qid depth st

/-- The fuel-indexed crawl loop; stops on an empty queue or a growth-cap
break. -/
def crawlLoop (cfg : CrawlCfg) (col : Collaborators) : Nat → CrawlState → CrawlState
  | 0, st => st
  | fuel + 1, st =>
    if st.broke = true ∨ st.queue = [] then st
    else crawlLoop cfg col fuel (crawlStep cfg col st)

/-- The initial crawl state for a resolved seed list (graph.py 239-242). -/
def initState (qids : List String) : CrawlState :=
  { queue := qids.map (fun q => (q, 0)) }

/-- Did the loop exit on its own (empty queue or break) rather than running
out of fuel? -/
def crawlDone (st : CrawlState) : Bool := st.broke || st.queue.isEmpty

/-- `GraphBuilder.crawl` (graph.py lines 235-317) without a
`government_index`: resolve seeds, run the queue loop, and — when family
relations are enabled — run the hierarchy annotator as the final step.
Returns `none` when the given fuel did not let the loop finish. -/
def crawl (cfg : CrawlCfg) (col : Collaborators)
    (resolveSeeds : List String → List String) (seeds : List String)
    (fuel : Nat) : Option CrawlState :=
  let st := crawlLoop cfg col fuel (initState (resolveSeeds seeds))
  if crawlDone st then
    some (if cfg.includeFamily then { st with graph := annotateFamilyHierarchy st.graph }
          else st)
  else none

theorem alookup_mem {α β : Type} [DecidableEq α] {k : α} {v : β} :
    ∀ {l : List (α × β)}, alookup k l = some v → (k, v) ∈ l := by
  intro l
  induction l with
  | nil => intro h; cases h
  | cons hd tl ih =>
    intro h
    obtain ⟨a, b⟩ := hd
    by_cases ha : a = k
    · subst ha
      simp only [alookup, if_pos rfl] at h
      rw [List.mem_cons]
      exact Or.inl (by rw [Option.some.inj h])
    · simp only [alookup, if_neg ha] at h
      exact List.mem_cons_of_mem _ (ih h)

theorem Graph.addNodeWith_edges (g : Graph) (k : String) (f : NodeAttrs → NodeAttrs) :
    (g.addNodeWith k f).edges = g.edges := by
  unfold Graph.addNodeWith
  cases alookup k g.nodes <;> rfl

theorem Graph.addNodeWith_nodeIds_sub {g : Graph} {k : String} {f : NodeAttrs → NodeAttrs}
    {n : String} (h : n ∈ (g.addNodeWith k f).nodeIds) : n ∈ g.nodeIds ∨ n = k := by
  unfold Graph.addNodeWith at h
  cases hl : alookup k g.nodes with
  | some a =>
    rw [hl] at h
    unfold Graph.nodeIds at h
    rw [aupdate_map_fst] at h
    exact Or.inl h
  | none =>
    rw [hl] at h
    unfold Graph.nodeIds at h
    simp only [List.map_append, List.map_singleton, List.mem_append,
      List.mem_singleton] at h
    exact h

theorem Graph.addNodeWith_nodeIds_mono {g : Graph} {k : String} {f : NodeAttrs → NodeAttrs}
    {n : String} (h : n ∈ g.nodeIds) : n ∈ (g.addNodeWith k f).nodeIds := by
  unfold Graph.addNodeWith
  cases hl : alookup k g.nodes with
  | some a =>
    unfold Graph.nodeIds
    rw [aupdate_map_fst]
    exact h
  | none =>
    unfold Graph.nodeIds
    simp only [List.map_append, List.map_singleton, List.mem_append, List.mem_singleton]
    exact Or.inl h

theorem Graph.addNodeWith_mem_self (g : Graph) (k : String) (f : NodeAttrs → NodeAttrs) :
    k ∈ (g.addNodeWith k f).nodeIds := by
  unfold Graph.addNodeWith
  cases hl : alookup k g.nodes with
  | some a =>
    unfold Graph.nodeIds
    rw [aupdate_map_fst]
    exact List.mem_map.mpr ⟨(k, a), alookup_mem hl, rfl⟩
  | none =>
    unfold Graph.nodeIds
    simp

theorem Graph.addEdge_edges (g : Graph) (u v : String) (a : EdgeAttrs) :
    (g.addEdge u v a).edges = g.edges ++ [(u, v, a)] := by
  show ((g.addNodeWith u fun x => x).addNodeWith v fun x => x).edges ++ [(u, v, a)] =
    g.edges ++ [(u, v, a)]
  rw [Graph.addNodeWith_edges, Graph.addNodeWith_edges]

theorem Graph.addEdge_nodeIds_sub {g : Graph} {u v : String} {a : EdgeAttrs}
    {n : String} (h : n ∈ (g.addEdge u v a).nodeIds) :
    n ∈ g.nodeIds ∨ n = u ∨ n = v := by
  unfold Graph.addEdge at h
  rcases Graph.addNodeWith_nodeIds_sub h with h2 | rfl
  · rcases Graph.addNodeWith_nodeIds_sub h2 with h3 | rfl
    · exact Or.inl h3
    · exact Or.inr (Or.inl rfl)
  · exact Or.inr (Or.inr rfl)

theorem Graph.addEdge_nodeIds_mono {g : Graph} {u v : String} {a : EdgeAttrs}
    {n : String} (h : n ∈ g.nodeIds) : n ∈ (g.addEdge u v a).nodeIds :=
  Graph.addNodeWith_nodeIds_mono (Graph.addNodeWith_nodeIds_mono h)

theorem Graph.addEdge_mem_u (g : Graph) (u v : String) (a : EdgeAttrs) :
    u ∈ (g.addEdge u v a).nodeIds :=
  Graph.addNodeWith_nodeIds_mono (Graph.addNodeWith_mem_self g u _)

theorem Graph.addEdge_mem_v (g : Graph) (u v : String) (a : EdgeAttrs) :
    v ∈ (g.addEdge u v a).nodeIds :=
  Graph.addNodeWith_mem_self _ v _

theorem Graph.addNodeWith_noDangling {g : Graph} {k : String} {f : NodeAttrs → NodeAttrs}
    (h : g.noDangling) : (g.addNodeWith k f).noDangling := by
  intro e he
  rw [Graph.addNodeWith_edges] at he
  obtain ⟨h1, h2⟩ := h e he
  exact ⟨Graph.addNodeWith_nodeIds_mono h1, Graph.addNodeWith_nodeIds_mono h2⟩

theorem Graph.addEdge_noDangling {g : Graph} {u v : String} {a : EdgeAttrs}
    (h : g.noDangling) : (g.addEdge u v a).noDangling := by
  intro e he
  rw [Graph.addEdge_edges] at he
  rcases List.mem_append.mp he with hold | hnew
  · obtain ⟨h1, h2⟩ := h e hold
    exact ⟨Graph.addEdge_nodeIds_mono h1, Graph.addEdge_nodeIds_mono h2⟩
  · rw [List.mem_singleton] at hnew
    subst hnew
    exact ⟨Graph.addEdge_mem_u g u v a, Graph.addEdge_mem_v g u v a⟩

/-- Node record of the persisted `nodes.json` array (graph.py lines 324-327). -/
structure NodeRec where
  id : String
  attrs : NodeAttrs := {}
deriving DecidableEq

/-- Edge record of the persisted `edges.json` array (graph.py lines 328-334):
`u`/`source` and `v`/`target` keys are both accepted; a missing or empty
(falsy) endpoint drops the record. -/
structure LoadEdgeRec where
  u : Option String := none
  source : Option String := none
  v : Option String := none
  target : Option String := none
  attrs : EdgeAttrs
deriving DecidableEq

/-- `load_graph` (graph.py lines 320-335). -/
def loadGraph (nodeRecs : List NodeRec) (edgeRecs : List LoadEdgeRec) : Graph :=
  let g := nodeRecs.foldl (fun g r => g.addNodeWith r.id (fun _ => r.attrs)) {}
  edgeRecs.foldl
    (fun g r =>
      let uval := (r.u.orElse (fun _ => r.source)).getD ""
      let vval := (r.v.orElse (fun _ => r.target)).getD ""
      if uval ≠ "" ∧ vval ≠ "" then g.addEdge uval vval r.attrs else g)
    g

theorem loadGraph_noDangling (nodeRecs : List NodeRec) (edgeRecs : List LoadEdgeRec) :
    (loadGraph nodeRecs edgeRecs).noDangling := by
  unfold loadGraph
  have hbase : ∀ (recs : List NodeRec) (g : Graph), g.noDangling →
      (recs.foldl (fun g r => g.addNodeWith r.id (fun _ => r.attrs)) g).noDangling := by
    intro recs
    induction recs with
    | nil => intro g h; exact h
    | cons r rest ih =>
      intro g h
      exact ih _ (Graph.addNodeWith_noDangling h)
  have hedges : ∀ (recs : List LoadEdgeRec) (g : Graph), g.noDangling →
      (recs.foldl
        (fun g r =>
          let uval := (r.u.orElse (fun _ => r.source)).getD ""
          let vval := (r.v.orElse (fun _ => r.target)).getD ""
          if uval ≠ "" ∧ vval ≠ "" then g.addEdge uval vval r.attrs else g)
        g).noDangling := by
    intro recs
    induction recs with
    | nil => intro g h; exact h
    | cons r rest ih =>
      intro g h
      simp only [List.foldl_cons]
      apply ih
      by_cases hc : ((r.u.orElse (fun _ => r.source)).getD "" ≠ "" ∧
          (r.v.orElse (fun _ => r.target)).getD "" ≠ "")
      · simp only [if_pos hc]
        exact Graph.addEdge_noDangling h
      · simp only [if_neg hc]
        exact h
  apply hedges
  apply hbase
  intro e he
  cases he

theorem annotateMembers_edges (g : Graph) (cid : String) (lv : List (String × Nat)) :
    ∀ members, (annotateMembers g cid lv members).edges = g.edges := by
  unfold annotateMembers
  intro members
  induction members generalizing g with
  | nil => rfl
  | cons m rest ih =>
    simp only [List.foldl_cons]
    rw [ih]
    exact Graph.addNodeWith_edges g m _

theorem annotateMembers_nodeIds_mono {g : Graph} {cid : String}
    {lv : List (String × Nat)} {n : String} :
    ∀ members, n ∈ g.nodeIds → n ∈ (annotateMembers g cid lv members).nodeIds := by
  unfold annotateMembers
  intro members
  induction members generalizing g with
  | nil => intro h; exact h
  | cons m rest ih =>
    intro h
    simp only [List.foldl_cons]
    exact ih (Graph.addNodeWith_nodeIds_mono h)

theorem annotateMembers_nodeIds_sub {cid : String} {lv : List (String × Nat)}
    {n : String} :
    ∀ (members : List String) (g : Graph),
      n ∈ (annotateMembers g cid lv members).nodeIds → n ∈ g.nodeIds ∨ n ∈ members := by
  unfold annotateMembers
  intro members
  induction members with
  | nil => intro g h; exact Or.inl h
  | cons m rest ih =>
    intro g h
    simp only [List.foldl_cons] at h
    rcases ih _ h with h2 | h2
    · rcases Graph.addNodeWith_nodeIds_sub h2 with h3 | rfl
      · exact Or.inl h3
      · exact Or.inr (List.mem_cons_self _ _)
    · exact Or.inr (List.mem_cons_of_mem _ h2)

theorem annotateLoop_edges (adj : List (String × List String))
    (pe : List (String × String)) (prs : List (String × List String)) (fd : Nat) :
    ∀ keys visited idx acc,
      (annotateLoop adj pe prs fd keys visited idx acc).edges = acc.edges := by
  intro keys
  induction keys with
  | nil => intro visited idx acc; rfl
  | cons node rest ih =>
    intro visited idx acc
    unfold annotateLoop
    by_cases hc : node ∈ visited ∨ ((alookup node adj).getD []).isEmpty = true
    · rw [if_pos hc]
      exact ih visited idx acc
    · rw [if_neg hc]
      rw [ih]
      exact annotateMembers_edges acc _ _ _

theorem annotateLoop_nodeIds_mono (adj : List (String × List String))
    (pe : List (String × String)) (prs : List (String × List String)) (fd : Nat)
    {n : String} :
    ∀ keys visited idx acc, n ∈ acc.nodeIds →
      n ∈ (annotateLoop adj pe prs fd keys visited idx acc).nodeIds := by
  intro keys
  induction keys with
  | nil => intro visited idx acc h; exact h
  | cons node rest ih =>
    intro visited idx acc h
    unfold annotateLoop
    by_cases hc : node ∈ visited ∨ ((alookup node adj).getD []).isEmpty = true
    · rw [if_pos hc]
      exact ih visited idx acc h
    · rw [if_neg hc]
      exact ih _ _ _ (annotateMembers_nodeIds_mono _ h)

theorem annotateFamilyHierarchy_edges (g : Graph) :
    (annotateFamilyHierarchy g).edges = g.edges := by
  unfold annotateFamilyHierarchy
  by_cases hc : hasFamilyEdge g = true
  · rw [if_pos hc]
    exact annotateLoop_edges _ _ _ _ _ _ _ _
  · rw [if_neg hc]

theorem annotateFamilyHierarchy_nodeIds_mono {g : Graph} {n : String}
    (h : n ∈ g.nodeIds) : n ∈ (annotateFamilyHierarchy g).nodeIds := by
  unfold annotateFamilyHierarchy
  by_cases hc : hasFamilyEdge g = true
  · rw [if_pos hc]
    exact annotateLoop_nodeIds_mono _ _ _ _ _ _ _ _ h
  · rw [if_neg hc]
    exact h

theorem annotateFamilyHierarchy_noDangling {g : Graph} (h : g.noDangling) :
    (annotateFamilyHierarchy g).noDangling := by
  intro e he
  rw [annotateFamilyHierarchy_edges] at he
  obtain ⟨h1, h2⟩ := h e he
  exact ⟨annotateFamilyHierarchy_nodeIds_mono h1, annotateFamilyHierarchy_nodeIds_mono h2⟩

theorem addBatchNodes_edges (col : Collaborators) (batch : List String) (g : Graph) :
    (addBatchNodes col batch g).edges = g.edges := by
  unfold addBatchNodes
  induction batch generalizing g with
  | nil => rfl
  | cons b rest ih =>
    simp only [List.foldl_cons]
    rw [ih]
    exact Graph.addNodeWith_edges g b _

theorem addBatchNodes_noDangling {col : Collaborators} {batch : List String} {g : Graph}
    (h : g.noDangling) : (addBatchNodes col batch g).noDangling := by
  unfold addBatchNodes
  induction batch generalizing g with
  | nil => exact h
  | cons b rest ih =>
    simp only [List.foldl_cons]
    exact ih (Graph.addNodeWith_noDangling h)

theorem addEdgesLoop_noDangling (cfg : CrawlCfg) :
    ∀ (es : List Edge) (g : Graph) (rc : List (String × Nat)), g.noDangling →
      (addEdgesLoop cfg es g rc).1.noDangling := by
  intro es
  induction es with
  | nil => intro g rc h; exact h
  | cons e rest ih =>
    intro g rc h
    unfold addEdgesLoop
    by_cases hc : (cfg.maxEdges != 0 &&
        decide (cfg.maxEdges ≤ (g.addEdge e.source e.target e.attrs).edges.length)) = true
    · rw [if_pos hc]
      exact Graph.addEdge_noDangling h
    · rw [if_neg hc]
      exact ih _ _ (Graph.addEdge_noDangling h)

theorem addInfoboxItems_noDangling (qid : String) :
    ∀ (items : List (String × InfoPayload)) (g : Graph) (cnt : Nat), g.noDangling →
      (addInfoboxItems qid items g cnt).1.noDangling := by
  intro items
  induction items with
  | nil => intro g cnt h; exact h
  | cons item rest ih =>
    obtain ⟨rel, p⟩ := item
    intro g cnt h
    exact ih _ _ (Graph.addEdge_noDangling (Graph.addNodeWith_noDangling h))

theorem expandStep_noDangling (cfg : CrawlCfg) (col : Collaborators) (qid : String)
    (depth : Nat) (st : CrawlState) (h : st.graph.noDangling) :
    (expandStep cfg col qid depth st).graph.noDangling := by
  unfold expandStep
  have h1 : (addEdgesLoop cfg (col.fetchRelations qid)
      (addBatchNodes col (nodeBatch (col.fetchRelations qid) qid) st.graph)
      st.relationCounts).1.noDangling :=
    addEdgesLoop_noDangling cfg _ _ _ (addBatchNodes_noDangling h)
  by_cases hf : cfg.includeFamily = true
  · simp only [hf, if_true]
    cases hee : col.extractEdges (titleOf col qid) with
    | error exc =>
      split
      · exact h1
      · exact h1
    | ok items =>
      split
      · exact addInfoboxItems_noDangling qid items _ _ h1
      · exact addInfoboxItems_noDangling qid items _ _ h1
  · simp only [hf, if_false]
    split
    · exact h1
    · exact h1

theorem crawlStep_noDangling (cfg : CrawlCfg) (col : Collaborators) (st : CrawlState)
    (h : st.graph.noDangling) : (crawlStep cfg col st).graph.noDangling := by
  unfold crawlStep
  cases st.queue with
  | nil => exact h
  | cons e rest =>
    obtain ⟨qid, depth⟩ := e
    by_cases hv : qid ∈ st.visited
    · simp only [if_pos hv]
      exact h
    · simp only [if_neg hv]
      by_cases hd : decide (cfg.maxDepth < depth) = true
      · simp only [hd, if_true]
        exact h
      · simp only [hd, if_false]
        by_cases hsc : shouldContinue cfg st.graph = false
        · simp only [hsc, if_pos rfl]
          exact h
        · rw [if_neg hsc]
          exact expandStep_noDangling cfg col qid depth _ h

theorem crawlLoop_noDangling (cfg : CrawlCfg) (col : Collaborators) :
    ∀ (fuel : Nat) (st : CrawlState), st.graph.noDangling →
      (crawlLoop cfg col fuel st).graph.noDangling := by
  intro fuel
  induction fuel with
  | zero => intro st h; exact h
  | succ fuel ih =>
    intro st h
    unfold crawlLoop
    by_cases hc : st.broke = true ∨ st.queue = []
    · rw [if_pos hc]; exact h
    · rw [if_neg hc]
      exact ih _ (crawlStep_noDangling cfg col st h)

/-- **C7** (confirmed).  Every graph produced by a crawl — at every
intermediate state of construction (any fuel) and in the final annotated
result — and every graph loaded from persisted node/edge records has no
dangling edge endpoints: each edge's source and target ids are present among
the graph's node ids. -/
theorem no_dangling_endpoints :
    (∀ (nodeRecs : List NodeRec) (edgeRecs : List LoadEdgeRec),
      (loadGraph nodeRecs edgeRecs).noDangling) ∧
    (∀ (cfg : CrawlCfg) (col : Collaborators) (rs : List String → List String)
       (seeds : List String) (fuel : Nat),
      ((crawlLoop cfg col fuel (initState (rs seeds))).graph).noDangling) ∧
    (∀ (cfg : CrawlCfg) (col : Collaborators) (rs : List String → List String)
       (seeds : List String) (fuel : Nat) (stf : CrawlState),
      crawl cfg col rs seeds fuel = some stf → stf.graph.noDangling) := by
  have hinit : ∀ qids : List String, (initState qids).graph.noDangling := by
    intro qids e he
    cases he
  refine ⟨loadGraph_noDangling, ?_, ?_⟩
  · intro cfg col rs seeds fuel
    exact crawlLoop_noDangling cfg col fuel _ (hinit _)
  · intro cfg col rs seeds fuel stf hc
    unfold crawl at hc
    by_cases hdone : crawlDone (crawlLoop cfg col fuel (initState (rs seeds))) = true
    · rw [if_pos hdone] at hc
      have hloop := crawlLoop_noDangling cfg col fuel (initState (rs seeds)) (hinit _)
      by_cases hf : cfg.includeFamily = true
      · rw [hf, if_pos rfl] at hc
        cases Option.some.inj hc
        exact annotateFamilyHierarchy_noDangling hloop
      · rw [if_neg hf] at hc
        cases Option.some.inj hc
        exact hloop
    · rw [if_neg hdone] at hc
      cases hc

theorem addEdgesLoop_edges_mono (cfg : CrawlCfg) :
    ∀ (es : List Edge) (g : Graph) (rc : List (String × Nat)) (e0 : String × String × EdgeAttrs),
      e0 ∈ g.edges → e0 ∈ (addEdgesLoop cfg es g rc).1.edges := by
  intro es
  induction es with
  | nil => intro g rc e0 h; exact h
  | cons e rest ih =>
    intro g rc e0 h
    have h2 : e0 ∈ (g.addEdge e.source e.target e.attrs).edges := by
      rw [Graph.addEdge_edges]
      exact List.mem_append_left _ h
    unfold addEdgesLoop
    by_cases hc : (cfg.maxEdges != 0 &&
        decide (cfg.maxEdges ≤ (g.addEdge e.source e.target e.attrs).edges.length)) = true
    · rw [if_pos hc]
      exact h2
    · rw [if_neg hc]
      exact ih _ _ e0 h2

theorem addEdgesLoop_nodeIds_mono (cfg : CrawlCfg) :
    ∀ (es : List Edge) (g : Graph) (rc : List (String × Nat)) (n : String),
      n ∈ g.nodeIds → n ∈ (addEdgesLoop cfg es g rc).1.nodeIds := by
  intro es
  induction es with
  | nil => intro g rc n h; exact h
  | cons e rest ih =>
    intro g rc n h
    have h2 : n ∈ (g.addEdge e.source e.target e.attrs).nodeIds :=
      Graph.addEdge_nodeIds_mono h
    unfold addEdgesLoop
    by_cases hc : (cfg.maxEdges != 0 &&
        decide (cfg.maxEdges ≤ (g.addEdge e.source e.target e.attrs).edges.length)) = true
    · rw [if_pos hc]
      exact h2
    · rw [if_neg hc]
      exact ih _ _ n h2

theorem addBatchNodes_nodeIds_mono (col : Collaborators) :
    ∀ (batch : List String) (g : Graph) (n : String),
      n ∈ g.nodeIds → n ∈ (addBatchNodes col batch g).nodeIds := by
  unfold addBatchNodes
  intro batch
  induction batch with
  | nil => intro g n h; exact h
  | cons b rest ih =>
    intro g n h
    simp only [List.foldl_cons]
    exact ih _ n (Graph.addNodeWith_nodeIds_mono h)

theorem addInfoboxItems_mono (qid : String) :
    ∀ (items : List (String × InfoPayload)) (g : Graph) (cnt : Nat),
      (∀ e0 ∈ g.edges, e0 ∈ (addInfoboxItems qid items g cnt).1.edges) ∧
      (∀ n ∈ g.nodeIds, n ∈ (addInfoboxItems qid items g cnt).1.nodeIds) := by
  intro items
  induction items with
  | nil => intro g cnt; exact ⟨fun e0 h => h, fun n h => h⟩
  | cons item rest ih =>
    obtain ⟨rel, p⟩ := item
    intro g cnt
    constructor
    · intro e0 h
      apply (ih _ _).1
      rw [Graph.addEdge_edges, Graph.addNodeWith_edges]
      exact List.mem_append_left _ h
    · intro n h
      apply (ih _ _).2
      exact Graph.addEdge_nodeIds_mono (Graph.addNodeWith_nodeIds_mono h)

theorem addInfoboxItems_spec (qid : String) :
    ∀ (items : List (String × InfoPayload)) (g : Graph) (cnt : Nat),
      ∀ ip ∈ items,
        (qid, tempId qid ip.1 ip.2.value, infoboxAttrs ip.1 ip.2) ∈
          (addInfoboxItems qid items g cnt).1.edges ∧
        tempId qid ip.1 ip.2.value ∈ (addInfoboxItems qid items g cnt).1.nodeIds := by
  intro items
  induction items with
  | nil => intro g cnt ip h; cases h
  | cons item rest ih =>
    obtain ⟨rel, p⟩ := item
    intro g cnt ip hip
    rcases List.mem_cons.mp hip with rfl | hmem
    · constructor
      · apply (addInfoboxItems_mono qid rest _ _).1
        rw [Graph.addEdge_edges]
        exact List.mem_append_right _ (List.mem_singleton.mpr rfl)
      · apply (addInfoboxItems_mono qid rest _ _).2
        exact Graph.addEdge_mem_v _ _ _ _
    · exact ih _ _ ip hmem

theorem expandStep_fetchLog (cfg : CrawlCfg) (col : Collaborators) (qid : String)
    (depth : Nat) (st : CrawlState) :
    (expandStep cfg col qid depth st).fetchLog = st.fetchLog ++ [qid] := by
  unfold expandStep
  by_cases hf : cfg.includeFamily = true
  · simp only [hf, if_true]
    cases col.extractEdges (titleOf col qid) <;> split <;> rfl
  · simp only [hf, if_false]
    split <;> rfl

theorem expandStep_infoboxLog_family (cfg : CrawlCfg) (col : Collaborators) (qid : String)
    (depth : Nat) (st : CrawlState) (hf : cfg.includeFamily = true) :
    (expandStep cfg col qid depth st).infoboxLog = st.infoboxLog ++ [qid] := by
  unfold expandStep
  simp only [hf, if_true]
  cases col.extractEdges (titleOf col qid) <;> split <;> rfl

theorem expandStep_infoboxLog_nofamily (cfg : CrawlCfg) (col : Collaborators) (qid : String)
    (depth : Nat) (st : CrawlState) (hf : cfg.includeFamily = false) :
    (expandStep cfg col qid depth st).infoboxLog = st.infoboxLog := by
  unfold expandStep
  simp only [hf]
  split <;> rfl

theorem expandStep_warnings_mono (cfg : CrawlCfg) (col : Collaborators) (qid : String)
    (depth : Nat) (st : CrawlState) (w : String) (h : w ∈ st.warnings) :
    w ∈ (expandStep cfg col qid depth st).warnings := by
  unfold expandStep
  by_cases hf : cfg.includeFamily = true
  · simp only [hf, if_true]
    cases col.extractEdges (titleOf col qid) with
    | error exc =>
      split
      · exact List.mem_append_left _ h
      · exact List.mem_append_left _ h
    | ok items => split <;> exact h
  · simp only [hf, if_false]
    split <;> exact h

theorem expandStep_warning_new (cfg : CrawlCfg) (col : Collaborators) (qid : String)
    (depth : Nat) (st : CrawlState) (exc : String) (hf : cfg.includeFamily = true)
    (herr : col.extractEdges (titleOf col qid) = .error exc) :
    infoWarning qid exc ∈ (expandStep cfg col qid depth st).warnings := by
  unfold expandStep
  simp only [hf, if_true, herr]
  split <;> exact List.mem_append_right _ (List.mem_singleton.mpr rfl)

theorem expandStep_edges_mono (cfg : CrawlCfg) (col : Collaborators) (qid : String)
    (depth : Nat) (st : CrawlState) (e0 : String × String × EdgeAttrs)
    (h : e0 ∈ st.graph.edges) : e0 ∈ (expandStep cfg col qid depth st).graph.edges := by
  unfold expandStep
  have h1 : e0 ∈ (addEdgesLoop cfg (col.fetchRelations qid)
      (addBatchNodes col (nodeBatch (col.fetchRelations qid) qid) st.graph)
      st.relationCounts).1.edges := by
    apply addEdgesLoop_edges_mono
    rw [addBatchNodes_edges]
    exact h
  by_cases hf : cfg.includeFamily = true
  · simp only [hf, if_true]
    cases col.extractEdges (titleOf col qid) with
    | error exc => split <;> exact h1
    | ok items =>
      split
      · exact (addInfoboxItems_mono qid items _ _).1 e0 h1
      · exact (addInfoboxItems_mono qid items _ _).1 e0 h1
  · simp only [hf, if_false]
    split <;> exact h1

theorem expandStep_nodeIds_mono (cfg : CrawlCfg) (col : Collaborators) (qid : String)
    (depth : Nat) (st : CrawlState) (n : String)
    (h : n ∈ st.graph.nodeIds) : n ∈ (expandStep cfg col qid depth st).graph.nodeIds := by
  unfold expandStep
  have h1 : n ∈ (addEdgesLoop cfg (col.fetchRelations qid)
      (addBatchNodes col (nodeBatch (col.fetchRelations qid) qid) st.graph)
      st.relationCounts).1.nodeIds := by
    apply addEdgesLoop_nodeIds_mono
    exact addBatchNodes_nodeIds_mono col _ _ n h
  by_cases hf : cfg.includeFamily = true
  · simp only [hf, if_true]
    cases col.extractEdges (titleOf col qid) with
    | error exc => split <;> exact h1
    | ok items =>
      split
      · exact (addInfoboxItems_mono qid items _ _).2 n h1
      · exact (addInfoboxItems_mono qid items _ _).2 n h1
  · simp only [hf, if_false]
    split <;> exact h1

theorem expandStep_new_infobox (cfg : CrawlCfg) (col : Collaborators) (qid : String)
    (depth : Nat) (st : CrawlState) (items : List (String × InfoPayload))
    (hf : cfg.includeFamily = true)
    (hok : col.extractEdges (titleOf col qid) = .ok items) :
    ∀ ip ∈ items,
      (qid, tempId qid ip.1 ip.2.value, infoboxAttrs ip.1 ip.2) ∈
        (expandStep cfg col qid depth st).graph.edges ∧
      tempId qid ip.1 ip.2.value ∈ (expandStep cfg col qid depth st).graph.nodeIds := by
  intro ip hip
  unfold expandStep
  simp only [hf, if_true, hok]
  constructor
  · split <;> exact (addInfoboxItems_spec qid items _ _ ip hip).1
  · split <;> exact (addInfoboxItems_spec qid items _ _ ip hip).2

/-- The fallback-path invariant of a crawl run: the infobox source is
consulted for exactly the expanded ids (iff family relations are enabled),
fallback failures are recorded as warnings, and fallback results are present
as placeholder nodes/edges with infobox provenance. -/
def InfoInv (cfg : CrawlCfg) (col : Collaborators) (st : CrawlState) : Prop :=
  (cfg.includeFamily = true → st.infoboxLog = st.fetchLog) ∧
  (cfg.includeFamily = false → st.infoboxLog = []) ∧
  (∀ q ∈ st.infoboxLog, ∀ exc, col.extractEdges (titleOf col q) = .error exc →
    infoWarning q exc ∈ st.warnings) ∧
  (∀ q ∈ st.infoboxLog, ∀ items, col.extractEdges (titleOf col q) = .ok items →
    ∀ ip ∈ items,
      (q, tempId q ip.1 ip.2.value, infoboxAttrs ip.1 ip.2) ∈ st.graph.edges ∧
      tempId q ip.1 ip.2.value ∈ st.graph.nodeIds)

theorem expandStep_InfoInv (cfg : CrawlCfg) (col : Collaborators) (qid : String)
    (depth : Nat) (st : CrawlState) (h : InfoInv cfg col st) :
    InfoInv cfg col (expandStep cfg col qid depth st) := by
  obtain ⟨hlog, hnolog, hwarn, hedge⟩ := h
  by_cases hf : cfg.includeFamily = true
  · refine ⟨?_, ?_, ?_, ?_⟩
    · intro _
      rw [expandStep_infoboxLog_family cfg col qid depth st hf, expandStep_fetchLog,
        hlog hf]
    · intro hff
      rw [hf] at hff
      cases hff
    · intro q hq exc herr
      rw [expandStep_infoboxLog_family cfg col qid depth st hf] at hq
      rcases List.mem_append.mp hq with hold | hnew
      · exact expandStep_warnings_mono cfg col qid depth st _ (hwarn q hold exc herr)
      · rw [List.mem_singleton] at hnew
        subst hnew
        exact expandStep_warning_new cfg col q depth st exc hf herr
    · intro q hq items hok ip hip
      rw [expandStep_infoboxLog_family cfg col qid depth st hf] at hq
      rcases List.mem_append.mp hq with hold | hnew
      · obtain ⟨h1, h2⟩ := hedge q hold items hok ip hip
        exact ⟨expandStep_edges_mono cfg col qid depth st _ h1,
          expandStep_nodeIds_mono cfg col qid depth st _ h2⟩
      · rw [List.mem_singleton] at hnew
        subst hnew
        exact expandStep_new_infobox cfg col q depth st items hf hok ip hip
  · have hf2 : cfg.includeFamily = false := by
      cases hb : cfg.includeFamily
      · rfl
      · exact absurd hb hf
    refine ⟨?_, ?_, ?_, ?_⟩
    · intro hff
      rw [hff] at hf
      exact absurd rfl hf
    · intro _
      rw [expandStep_infoboxLog_nofamily cfg col qid depth st hf2]
      exact hnolog hf2
    · intro q hq exc herr
      rw [expandStep_infoboxLog_nofamily cfg col qid depth st hf2, hnolog hf2] at hq
      cases hq
    · intro q hq items hok ip hip
      rw [expandStep_infoboxLog_nofamily cfg col qid depth st hf2, hnolog hf2] at hq
      cases hq

theorem crawlStep_InfoInv (cfg : CrawlCfg) (col : Collaborators) (st : CrawlState)
    (h : InfoInv cfg col st) : InfoInv cfg col (crawlStep cfg col st) := by
  unfold crawlStep
  cases st.queue with
  | nil => exact h
  | cons e rest =>
    obtain ⟨qid, depth⟩ := e
    by_cases hv : qid ∈ st.visited
    · simp only [if_pos hv]
      exact h
    · simp only [if_neg hv]
      by_cases hd : decide (cfg.maxDepth < depth) = true
      · simp only [hd, if_true]
        exact h
      · simp only [hd, if_false]
        by_cases hsc : shouldContinue cfg st.graph = false
        · simp only [hsc, if_pos rfl]
          exact h
        · rw [if_neg hsc]
          exact expandStep_InfoInv cfg col qid depth _ h

theorem crawlLoop_InfoInv (cfg : CrawlCfg) (col : Collaborators) :
    ∀ (fuel : Nat) (st : CrawlState), InfoInv cfg col st →
      InfoInv cfg col (crawlLoop cfg col fuel st) := by
  intro fuel
  induction fuel with
  | zero => intro st h; exact h
  | succ fuel ih =>
    intro st h
    unfold crawlLoop
    by_cases hc : st.broke = true ∨ st.queue = []
    · rw [if_pos hc]; exact h
    · rw [if_neg hc]
      exact ih _ (crawlStep_InfoInv cfg col st h)

/-- **C1** (amended).  When family relations are enabled, the secondary
(infobox) relation source is consulted for *every* expanded id — regardless
of whether the primary source returned edges for it — and never consulted
otherwise; every edge the fallback returns is present as a synthetic
placeholder node and edge with infobox provenance, and any exception raised
on the fallback path is recorded in the run's warnings rather than
propagated (a completed crawl exists for every such failure). -/
theorem crawl_infobox_fallback (cfg : CrawlCfg) (col : Collaborators)
    (rs : List String → List String) (seeds : List String) (fuel : Nat)
    (stf : CrawlState) (hc : crawl cfg col rs seeds fuel = some stf) :
    (cfg.includeFamily = true → stf.infoboxLog = stf.fetchLog) ∧
    (cfg.includeFamily = false → stf.infoboxLog = []) ∧
    (∀ q ∈ stf.infoboxLog, ∀ exc, col.extractEdges (titleOf col q) = .error exc →
      infoWarning q exc ∈ stf.warnings) ∧
    (∀ q ∈ stf.infoboxLog, ∀ items, col.extractEdges (titleOf col q) = .ok items →
      ∀ ip ∈ items,
        (q, tempId q ip.1 ip.2.value, infoboxAttrs ip.1 ip.2) ∈ stf.graph.edges ∧
        tempId q ip.1 ip.2.value ∈ stf.graph.nodeIds) := by
  unfold crawl at hc
  have hinv0 : InfoInv cfg col (initState (rs seeds)) := by
    refine ⟨fun _ => rfl, fun _ => rfl, ?_, ?_⟩
    · intro q hq
      cases hq
    · intro q hq
      cases hq
  have hinv := crawlLoop_InfoInv cfg col fuel _ hinv0
  by_cases hdone : crawlDone (crawlLoop cfg col fuel (initState (rs seeds))) = true
  · rw [if_pos hdone] at hc
    obtain ⟨h1, h2, h3, h4⟩ := hinv
    by_cases hf : cfg.includeFamily = true
    · rw [hf, if_pos rfl] at hc
      cases Option.some.inj hc
      refine ⟨fun _ => h1 hf, ?_, h3, ?_⟩
      · intro hff
        rw [hff] at hf
        exact absurd hf (by decide)
      · intro q hq items hok ip hip
        obtain ⟨he, hn⟩ := h4 q hq items hok ip hip
        constructor
        · rw [annotateFamilyHierarchy_edges]
          exact he
        · exact annotateFamilyHierarchy_nodeIds_mono hn
    · rw [if_neg hf] at hc
      cases Option.some.inj hc
      exact ⟨h1, h2, h3, h4⟩
  · rw [if_neg hdone] at hc
    cases hc

def edgeX : Edge :=
  { source := "Q1", target := "Q2", relation := "father", pid := "P22",
    source_system := "wikidata", evidence_url := "u", retrieved_at := "t" }

def payloadX : InfoPayload :=
  { value := "Z", source_system := "wikipedia", evidence_url := "w",
    retrieved_at := "t" }

/-- Concrete collaborators: the primary source returns one edge for Q1 and
nothing else; the infobox source always returns one entry. -/
def colX : Collaborators :=
  { fetchRelations := fun q => if q = "Q1" then [edgeX] else [],
    fetchLabels := fun _ => {},
    extractEdges := fun _ => .ok [("father", payloadX)] }

def cfgX : CrawlCfg := {}

def stX : CrawlState := (crawl cfgX colX (fun s => s) ["Q1"] 10).getD {}

/-- **C1 counterexample.**  In this crawl the primary source returns an edge
for Q1, yet the infobox fallback is still consulted for Q1 (and produces a
placeholder edge): the fallback block (graph.py lines 285-308) runs for
every expanded id whenever family relations are enabled — it is not gated on
the primary source returning no edges, so "consulted if and only if the
primary relation source returned no edges" is false. -/
theorem crawl_infobox_counterexample :
    crawl cfgX colX (fun s => s) ["Q1"] 10 = some stX ∧
    colX.fetchRelations "Q1" = [edgeX] ∧
    "Q1" ∈ stX.infoboxLog ∧
    stX.infoboxEdges = 2 ∧
    ("Q1", tempId "Q1" "father" "Z", infoboxAttrs "father" payloadX) ∈ stX.graph.edges := by
  refine ⟨rfl, rfl, ?_, rfl, ?_⟩ <;> decide

/-- Witness for C1's amended theorem at the concrete crawl above, plus a
fallback-failure run whose exception lands in the warnings. -/
theorem crawl_infobox_fallback_witness :
    (crawl cfgX colX (fun s => s) ["Q1"] 10 = some stX ∧
      cfgX.includeFamily = true ∧ stX.infoboxLog = stX.fetchLog) ∧
    (∀ q ∈ stX.infoboxLog, ∀ items,
      colX.extractEdges (titleOf colX q) = .ok items →
      ∀ ip ∈ items,
        (q, tempId q ip.1 ip.2.value, infoboxAttrs ip.1 ip.2) ∈ stX.graph.edges ∧
        tempId q ip.1 ip.2.value ∈ stX.graph.nodeIds) :=
  ⟨⟨rfl, rfl,
    (crawl_infobox_fallback cfgX colX (fun s => s) ["Q1"] 10 stX rfl).1 rfl⟩,
    (crawl_infobox_fallback cfgX colX (fun s => s) ["Q1"] 10 stX rfl).2.2.2⟩

/-- Witness for C7's crawl clause at the same concrete crawl. -/
theorem no_dangling_endpoints_witness :
    crawl cfgX colX (fun s => s) ["Q1"] 10 = some stX ∧ stX.graph.noDangling :=
  ⟨rfl, no_dangling_endpoints.2.2 cfgX colX (fun s => s) ["Q1"] 10 stX rfl⟩

/-- `n` occurs as an endpoint of some edge of `g`. -/
def EndpointOf (g : Graph) (n : String) : Prop :=
  ∃ e ∈ g.edges, n = e.1 ∨ n = e.2.1

theorem addPeer_sound {S : String → Prop} (acc : List (String × List String))
    (k v : String) (hacc : ∀ p ∈ acc, S p.1 ∧ ∀ x ∈ p.2, S x) (hk : S k) (hv : S v) :
    ∀ p ∈ addPeer acc k v, S p.1 ∧ ∀ x ∈ p.2, S x := by
  intro p hp
  unfold addPeer at hp
  cases hl : alookup k acc with
  | some s =>
    rw [hl] at hp
    rcases mem_aupdate _ hp with hold | ⟨q, hq, rfl⟩
    · exact hacc p hold
    · refine ⟨(hacc q hq).1, ?_⟩
      intro x hx
      rcases (mem_insertUniq _ _ _).mp hx with hx2 | rfl
      · exact (hacc q hq).2 x hx2
      · exact hv
  | none =>
    rw [hl] at hp
    rcases List.mem_append.mp hp with hold | hnew
    · exact hacc p hold
    · rw [List.mem_singleton] at hnew
      subst hnew
      refine ⟨hk, ?_⟩
      intro x hx
      rw [List.mem_singleton] at hx
      subst hx
      exact hv

theorem familyAdjacency_sound (g : Graph) :
    ∀ p ∈ familyAdjacency g,
      (p.1 ∈ g.nodeIds ∨ EndpointOf g p.1) ∧
      (∀ x ∈ p.2, x ∈ g.nodeIds ∨ EndpointOf g x) := by
  unfold familyAdjacency
  have hgen : ∀ (l : List (String × String × EdgeAttrs))
      (acc : List (String × List String)),
      (∀ e ∈ l, e ∈ g.edges) →
      (∀ p ∈ acc, (p.1 ∈ g.nodeIds ∨ EndpointOf g p.1) ∧
        (∀ x ∈ p.2, x ∈ g.nodeIds ∨ EndpointOf g x)) →
      ∀ p ∈ l.foldl
        (fun acc e =>
          if e.2.2.relation ∈ FAMILY_RELATIONS then
            addPeer (addPeer acc e.1 e.2.1) e.2.1 e.1
          else acc)
        acc,
        (p.1 ∈ g.nodeIds ∨ EndpointOf g p.1) ∧
        (∀ x ∈ p.2, x ∈ g.nodeIds ∨ EndpointOf g x) := by
    intro l
    induction l with
    | nil => intro acc _ hacc p hp; exact hacc p hp
    | cons e rest ih =>
      intro acc hsub hacc p hp
      simp only [List.foldl_cons] at hp
      by_cases hrel : e.2.2.relation ∈ FAMILY_RELATIONS
      · rw [if_pos hrel] at hp
        have hu : e.1 ∈ g.nodeIds ∨ EndpointOf g e.1 :=
          Or.inr ⟨e, hsub e (List.mem_cons_self _ _), Or.inl rfl⟩
        have hv : e.2.1 ∈ g.nodeIds ∨ EndpointOf g e.2.1 :=
          Or.inr ⟨e, hsub e (List.mem_cons_self _ _), Or.inr rfl⟩
        refine ih _ (fun x hx => hsub x (List.mem_cons_of_mem _ hx)) ?_ p hp
        intro p2 hp2
        exact addPeer_sound (S := fun m => m ∈ g.nodeIds ∨ EndpointOf g m) _ _ _
          (addPeer_sound (S := fun m => m ∈ g.nodeIds ∨ EndpointOf g m) _ _ _ hacc hu hv)
          hv hu p2 hp2
      · rw [if_neg hrel] at hp
        exact ih _ (fun x hx => hsub x (List.mem_cons_of_mem _ hx)) hacc p hp
  intro p hp
  refine hgen g.edges _ (fun e he => he) ?_ p hp
  intro p2 hp2
  rcases List.mem_map.mp hp2 with ⟨nid, hnid, rfl⟩
  refine ⟨Or.inl hnid, ?_⟩
  intro x hx
  cases hx

theorem dfsLoop_sound {S : String → Prop} (adj : List (String × List String))
    (hadj : ∀ p ∈ adj, ∀ x ∈ p.2, S x) :
    ∀ (fuel : Nat) (stack visited comp : List String),
      (∀ s ∈ stack, S s) → (∀ c ∈ comp, S c) →
      ∀ c ∈ (dfsLoop adj fuel stack visited comp).2, S c := by
  intro fuel
  induction fuel with
  | zero => intro stack visited comp _ hcomp c hc; exact hcomp c hc
  | succ fuel ih =>
    intro stack visited comp hstack hcomp c hc
    cases stack with
    | nil => exact hcomp c hc
    | cons current rest =>
      simp only [dfsLoop] at hc
      by_cases hv : current ∈ visited
      · rw [if_pos hv] at hc
        exact ih rest visited comp (fun s hs => hstack s (List.mem_cons_of_mem _ hs))
          hcomp c hc
      · rw [if_neg hv] at hc
        refine ih _ _ _ ?_ ?_ c hc
        · intro s hs
          rcases List.mem_append.mp hs with hpush | hrest
          · rw [List.mem_reverse] at hpush
            cases hl : alookup current adj with
            | some lst =>
              rw [hl] at hpush
              exact hadj _ (alookup_mem hl) s hpush
            | none =>
              rw [hl] at hpush
              cases hpush
          · exact hstack s (List.mem_cons_of_mem _ hrest)
        · intro c2 hc2
          rcases List.mem_append.mp hc2 with hold | hnew
          · exact hcomp c2 hold
          · rw [List.mem_singleton] at hnew
            subst hnew
            exact hstack c2 (List.mem_cons_self _ _)

theorem annotateLoop_nodeIds_sound {S : String → Prop}
    (adj : List (String × List String)) (pe : List (String × String))
    (prs : List (String × List String)) (fd : Nat)
    (hadj : ∀ p ∈ adj, ∀ x ∈ p.2, S x) :
    ∀ (keys visited : List String) (idx : Nat) (acc : Graph),
      (∀ k ∈ keys, S k) → (∀ n ∈ acc.nodeIds, S n) →
      ∀ n ∈ (annotateLoop adj pe prs fd keys visited idx acc).nodeIds, S n := by
  intro keys
  induction keys with
  | nil => intro visited idx acc _ hacc n hn; exact hacc n hn
  | cons node rest ih =>
    intro visited idx acc hkeys hacc n hn
    unfold annotateLoop at hn
    by_cases hc : node ∈ visited ∨ ((alookup node adj).getD []).isEmpty = true
    · rw [if_pos hc] at hn
      exact ih visited idx acc (fun k hk => hkeys k (List.mem_cons_of_mem _ hk)) hacc n hn
    · rw [if_neg hc] at hn
      refine ih _ _ _ (fun k hk => hkeys k (List.mem_cons_of_mem _ hk)) ?_ n hn
      intro n2 hn2
      rcases annotateMembers_nodeIds_sub _ _ hn2 with hold | hmem
      · exact hacc n2 hold
      · exact dfsLoop_sound adj hadj fd [node] visited []
          (fun s hs => by
            rw [List.mem_singleton] at hs
            subst hs
            exact hkeys s (List.mem_cons_self _ _))
          (fun c hcm => absurd hcm (List.not_mem_nil c)) n2 hmem

theorem annotateFamilyHierarchy_nodeIds_sub {g : Graph} {n : String}
    (h : n ∈ (annotateFamilyHierarchy g).nodeIds) :
    n ∈ g.nodeIds ∨ EndpointOf g n := by
  unfold annotateFamilyHierarchy at h
  by_cases hc : hasFamilyEdge g = true
  · rw [if_pos hc] at h
    refine annotateLoop_nodeIds_sound
      (S := fun m => m ∈ g.nodeIds ∨ EndpointOf g m) _ _ _ _ ?_ _ _ _ _ ?_ ?_ n h
    · intro p hp
      exact (familyAdjacency_sound g p hp).2
    · intro k hk
      rcases List.mem_map.mp hk with ⟨p, hp, rfl⟩
      exact (familyAdjacency_sound g p hp).1
    · intro n2 hn2
      exact Or.inl hn2
  · rw [if_neg hc] at h
    exact Or.inl h

/-- The node ids a depth-0 crawl may produce: a seed id itself, an endpoint
of an edge the primary source returns for a seed, or an infobox placeholder
id minted for a seed. -/
def C6Allowed (col : Collaborators) (qids : List String) (n : String) : Prop :=
  n ∈ qids ∨
  (∃ q ∈ qids, ∃ e ∈ col.fetchRelations q, n = e.source ∨ n = e.target) ∨
  (∃ q ∈ qids, ∃ items, col.extractEdges (titleOf col q) = Except.ok items ∧
    ∃ ip ∈ items, n = tempId q ip.1 ip.2.value)

theorem addBatchNodes_nodeIds_sub (col : Collaborators) :
    ∀ (batch : List String) (g : Graph) (n : String),
      n ∈ (addBatchNodes col batch g).nodeIds → n ∈ g.nodeIds ∨ n ∈ batch := by
  unfold addBatchNodes
  intro batch
  induction batch with
  | nil => intro g n h; exact Or.inl h
  | cons b rest ih =>
    intro g n h
    simp only [List.foldl_cons] at h
    rcases ih _ n h with h2 | h2
    · rcases Graph.addNodeWith_nodeIds_sub h2 with h3 | rfl
      · exact Or.inl h3
      · exact Or.inr (List.mem_cons_self _ _)
    · exact Or.inr (List.mem_cons_of_mem _ h2)

theorem nodeBatch_sub {edges : List Edge} {qid n : String}
    (h : n ∈ nodeBatch edges qid) :
    (∃ e ∈ edges, n = e.source ∨ n = e.target) ∨ n = qid := by
  unfold nodeBatch at h
  rw [mem_dedupKeepFirst] at h
  rcases List.mem_append.mp h with h1 | h2
  · rcases List.mem_append.mp h1 with ht | hs
    · rcases List.mem_map.mp ht with ⟨e, he, rfl⟩
      exact Or.inl ⟨e, he, Or.inr rfl⟩
    · rcases List.mem_map.mp hs with ⟨e, he, rfl⟩
      exact Or.inl ⟨e, he, Or.inl rfl⟩
  · rw [List.mem_singleton] at h2
    exact Or.inr h2

theorem addEdgesLoop_nodeIds_sub (cfg : CrawlCfg) :
    ∀ (es : List Edge) (g : Graph) (rc : List (String × Nat)) (n : String),
      n ∈ (addEdgesLoop cfg es g rc).1.nodeIds →
      n ∈ g.nodeIds ∨ ∃ e ∈ es, n = e.source ∨ n = e.target := by
  intro es
  induction es with
  | nil => intro g rc n h; exact Or.inl h
  | cons e rest ih =>
    intro g rc n h
    unfold addEdgesLoop at h
    by_cases hb : (cfg.maxEdges != 0 &&
        decide (cfg.maxEdges ≤ (g.addEdge e.source e.target e.attrs).edges.length)) = true
    · rw [if_pos hb] at h
      rcases Graph.addEdge_nodeIds_sub h with h2 | h2 | h2
      · exact Or.inl h2
      · exact Or.inr ⟨e, List.mem_cons_self _ _, Or.inl h2⟩
      · exact Or.inr ⟨e, List.mem_cons_self _ _, Or.inr h2⟩
    · rw [if_neg hb] at h
      rcases ih _ _ n h with h2 | ⟨e2, he2, h3⟩
      · rcases Graph.addEdge_nodeIds_sub h2 with h3 | h3 | h3
        · exact Or.inl h3
        · exact Or.inr ⟨e, List.mem_cons_self _ _, Or.inl h3⟩
        · exact Or.inr ⟨e, List.mem_cons_self _ _, Or.inr h3⟩
      · exact Or.inr ⟨e2, List.mem_cons_of_mem _ he2, h3⟩

theorem addInfoboxItems_nodeIds_sub (qid : String) :
    ∀ (items : List (String × InfoPayload)) (g : Graph) (cnt : Nat) (n : String),
      n ∈ (addInfoboxItems qid items g cnt).1.nodeIds →
      n ∈ g.nodeIds ∨ n = qid ∨ ∃ ip ∈ items, n = tempId qid ip.1 ip.2.value := by
  intro items
  induction items with
  | nil => intro g cnt n h; exact Or.inl h
  | cons item rest ih =>
    intro g cnt n h
    obtain ⟨rel, p⟩ := item
    unfold addInfoboxItems at h
    rcases ih _ _ n h with h2 | h2 | ⟨ip, hip, h3⟩
    · rcases Graph.addEdge_nodeIds_sub h2 with h3 | h3 | h3
      · rcases Graph.addNodeWith_nodeIds_sub h3 with h4 | h4
        · exact Or.inl h4
        · exact Or.inr (Or.inr ⟨(rel, p), List.mem_cons_self _ _, h4⟩)
      · exact Or.inr (Or.inl h3)
      · exact Or.inr (Or.inr ⟨(rel, p), List.mem_cons_self _ _, h3⟩)
    · exact Or.inr (Or.inl h2)
    · exact Or.inr (Or.inr ⟨ip, List.mem_cons_of_mem _ hip, h3⟩)

theorem expandStep_nodeIds_sub (cfg : CrawlCfg) (col : Collaborators) (qid : String)
    (depth : Nat) (st : CrawlState) (n : String)
    (h : n ∈ (expandStep cfg col qid depth st).graph.nodeIds) :
    n ∈ st.graph.nodeIds ∨ n = qid ∨
    (∃ e ∈ col.fetchRelations qid, n = e.source ∨ n = e.target) ∨
    (∃ items, col.extractEdges (titleOf col qid) = Except.ok items ∧
      ∃ ip ∈ items, n = tempId qid ip.1 ip.2.value) := by
  have hmid : ∀ m, m ∈ (addEdgesLoop cfg (col.fetchRelations qid)
      (addBatchNodes col (nodeBatch (col.fetchRelations qid) qid) st.graph)
      st.relationCounts).1.nodeIds →
      m ∈ st.graph.nodeIds ∨ m = qid ∨
      (∃ e ∈ col.fetchRelations qid, m = e.source ∨ m = e.target) ∨
      (∃ items, col.extractEdges (titleOf col qid) = Except.ok items ∧
        ∃ ip ∈ items, m = tempId qid ip.1 ip.2.value) := by
    intro m hm
    rcases addEdgesLoop_nodeIds_sub cfg _ _ _ m hm with h1 | ⟨e, he, h2⟩
    · rcases addBatchNodes_nodeIds_sub col _ _ m h1 with h2 | h2
      · exact Or.inl h2
      · rcases nodeBatch_sub h2 with ⟨e, he, h3⟩ | h3
        · exact Or.inr (Or.inr (Or.inl ⟨e, he, h3⟩))
        · exact Or.inr (Or.inl h3)
    · exact Or.inr (Or.inr (Or.inl ⟨e, he, h2⟩))
  unfold expandStep at h
  by_cases hf : cfg.includeFamily = true
  · simp only [hf, if_true] at h
    cases hx : col.extractEdges (titleOf col qid) with
    | error exc =>
      rw [hx] at h
      rw [← hx]
      split at h <;> exact hmid n h
    | ok items =>
      rw [hx] at h
      rw [← hx]
      have hsub : ∀ m, m ∈ (addInfoboxItems qid items
          (addEdgesLoop cfg (col.fetchRelations qid)
            (addBatchNodes col (nodeBatch (col.fetchRelations qid) qid) st.graph)
            st.relationCounts).1 st.infoboxEdges).1.nodeIds →
          m ∈ st.graph.nodeIds ∨ m = qid ∨
          (∃ e ∈ col.fetchRelations qid, m = e.source ∨ m = e.target) ∨
          (∃ items2, col.extractEdges (titleOf col qid) = Except.ok items2 ∧
            ∃ ip ∈ items2, m = tempId qid ip.1 ip.2.value) := by
        intro m hm
        rcases addInfoboxItems_nodeIds_sub qid items _ _ m hm with h1 | h1 | ⟨ip, hip, h2⟩
        · exact hmid m h1
        · exact Or.inr (Or.inl h1)
        · exact Or.inr (Or.inr (Or.inr ⟨items, hx, ip, hip, h2⟩))
      split at h <;> exact hsub n h
  · simp only [hf, if_false] at h
    split at h <;> exact hmid n h

theorem expandStep_queue_depth0 (cfg : CrawlCfg) (col : Collaborators) (qid : String)
    (depth : Nat) (st : CrawlState) (hd : cfg.maxDepth = 0) :
    (expandStep cfg col qid depth st).queue = st.queue := by
  unfold expandStep
  have hlt : decide (depth < cfg.maxDepth) = false := by
    rw [hd]
    exact decide_eq_false (Nat.not_lt_zero depth)
  by_cases hf : cfg.includeFamily = true
  · simp only [hf, if_true]
    cases col.extractEdges (titleOf col qid) with
    | error exc => rw [hlt]; rfl
    | ok items => rw [hlt]; rfl
  · simp only [hf, if_false]
    rw [hlt]
    rfl

/-- The invariant of a depth-0 crawl: every queued id is a seed, relations
were fetched only for seeds, and every node of the graph so far is
C6-allowed. -/
def DepthZeroInv (col : Collaborators) (qids : List String) (st : CrawlState) : Prop :=
  (∀ p ∈ st.queue, p.1 ∈ qids) ∧
  (∀ q ∈ st.fetchLog, q ∈ qids) ∧
  (∀ n ∈ st.graph.nodeIds, C6Allowed col qids n)

theorem crawlStep_DepthZeroInv (cfg : CrawlCfg) (col : Collaborators)
    (qids : List String) (st : CrawlState) (hd : cfg.maxDepth = 0)
    (h : DepthZeroInv col qids st) : DepthZeroInv col qids (crawlStep cfg col st) := by
  obtain ⟨hq, hfl, hg⟩ := h
  unfold crawlStep
  cases hqe : st.queue with
  | nil => exact ⟨fun p hp => hq p hp, hfl, hg⟩
  | cons e rest =>
    obtain ⟨qid, depth⟩ := e
    have hqid : qid ∈ qids := hq (qid, depth) (by rw [hqe]; exact List.mem_cons_self _ _)
    have hrest : ∀ p ∈ rest, p.1 ∈ qids := fun p hp =>
      hq p (by rw [hqe]; exact List.mem_cons_of_mem _ hp)
    by_cases hv : qid ∈ st.visited
    · simp only [if_pos hv]
      exact ⟨hrest, hfl, hg⟩
    · simp only [if_neg hv]
      by_cases hdd : decide (cfg.maxDepth < depth) = true
      · simp only [hdd, if_true]
        exact ⟨hrest, hfl, hg⟩
      · rw [if_neg hdd]
        by_cases hsc : shouldContinue cfg st.graph = false
        · simp only [hsc, if_pos rfl]
          exact ⟨hrest, hfl, hg⟩
        · rw [if_neg hsc]
          refine ⟨?_, ?_, ?_⟩
          · intro p hp
            rw [expandStep_queue_depth0 cfg col qid depth _ hd] at hp
            exact hrest p hp
          · intro q hqm
            rw [expandStep_fetchLog] at hqm
            rcases List.mem_append.mp hqm with hold | hnew
            · exact hfl q hold
            · rw [List.mem_singleton] at hnew
              subst hnew
              exact hqid
          · intro n hn
            rcases expandStep_nodeIds_sub cfg col qid depth _ n hn with
              h1 | h1 | ⟨e2, he2, h2⟩ | ⟨items, hok, ip, hip, h2⟩
            · exact hg n h1
            · subst h1
              exact Or.inl hqid
            · exact Or.inr (Or.inl ⟨qid, hqid, e2, he2, h2⟩)
            · exact Or.inr (Or.inr ⟨qid, hqid, items, hok, ip, hip, h2⟩)

theorem crawlLoop_DepthZeroInv (cfg : CrawlCfg) (col : Collaborators)
    (qids : List String) (hd : cfg.maxDepth = 0) :
    ∀ (fuel : Nat) (st : CrawlState), DepthZeroInv col qids st →
      DepthZeroInv col qids (crawlLoop cfg col fuel st) := by
  intro fuel
  induction fuel with
  | zero => intro st h; exact h
  | succ fuel ih =>
    intro st h
    unfold crawlLoop
    by_cases hc : st.broke = true ∨ st.queue = []
    · rw [if_pos hc]; exact h
    · rw [if_neg hc]
      exact ih _ (crawlStep_DepthZeroInv cfg col qids st hd h)

/-- **C6** (confirmed).  In every crawl run with maximum depth 0 that
finishes, relation edges were fetched only for the (resolved) seed ids
themselves, and every node of the resulting graph is a seed, an endpoint of
an edge the primary source returned for a seed, or an infobox placeholder
minted for a seed — no neighbor discovered from a seed's edges is ever
expanded. -/
theorem crawl_depth_zero (cfg : CrawlCfg) (col : Collaborators)
    (rs : List String → List String) (seeds : List String) (fuel : Nat)
    (stf : CrawlState) (hd : cfg.maxDepth = 0)
    (hc : crawl cfg col rs seeds fuel = some stf) :
    (∀ q ∈ stf.fetchLog, q ∈ rs seeds) ∧
    (∀ n ∈ stf.graph.nodeIds, C6Allowed col (rs seeds) n) := by
  have hinv : DepthZeroInv col (rs seeds)
      (crawlLoop cfg col fuel (initState (rs seeds))) := by
    apply crawlLoop_DepthZeroInv cfg col (rs seeds) hd fuel
    refine ⟨?_, ?_, ?_⟩
    · intro p hp
      rcases List.mem_map.mp hp with ⟨q, hqm, rfl⟩
      exact hqm
    · intro q hqm
      cases hqm
    · intro n hn
      cases hn
  have hND : (crawlLoop cfg col fuel (initState (rs seeds))).graph.noDangling :=
    crawlLoop_noDangling cfg col fuel _ (fun e he => by cases he)
  obtain ⟨hq, hfl, hg⟩ := hinv
  unfold crawl at hc
  by_cases hdone : crawlDone (crawlLoop cfg col fuel (initState (rs seeds))) = true
  · rw [if_pos hdone] at hc
    by_cases hf : cfg.includeFamily = true
    · rw [hf, if_pos rfl] at hc
      cases Option.some.inj hc
      refine ⟨hfl, ?_⟩
      intro n hn
      rcases annotateFamilyHierarchy_nodeIds_sub hn with h1 | ⟨e, he, h2⟩
      · exact hg n h1
      · rcases h2 with rfl | rfl
        · exact hg _ (hND e he).1
        · exact hg _ (hND e he).2
    · rw [if_neg hf] at hc
      cases Option.some.inj hc
      exact ⟨hfl, hg⟩
  · rw [if_neg hdone] at hc
    cases hc

/-- A depth-0 configuration (all other options default). -/
def cfg6 : CrawlCfg := { maxDepth := 0 }

def st6 : CrawlState := (crawl cfg6 colX (fun s => s) ["Q1"] 10).getD {}

theorem crawl_depth_zero_witness :
    cfg6.maxDepth = 0 ∧
    crawl cfg6 colX (fun s => s) ["Q1"] 10 = some st6 ∧
    ((∀ q ∈ st6.fetchLog, q ∈ (fun s => s) ["Q1"]) ∧
     (∀ n ∈ st6.graph.nodeIds, C6Allowed colX ((fun s => s) ["Q1"]) n)) :=
  ⟨rfl, by rfl,
   crawl_depth_zero cfg6 colX (fun s => s) ["Q1"] 10 st6 rfl (by rfl)⟩

/-!
## Anchor fallback and distances — `enrich` (`src/scripts/enrich_network.py`)

`enrich` builds a `networkx.MultiDiGraph` from the node/edge records
(lines 289-303) and then computes degrees, the monarch anchor set and the
distances to it (lines 306-339).  The graph is modelled by its node list
(insertion order, with attributes) and its directed multi-edge list; the
NetworkX operations used — `degree`, `to_undirected`,
`single_source_shortest_path_length` — are embedded with their documented
semantics (degree counts in- plus out-incidences; shortest path lengths are
BFS hop counts over the undirected view).
-/

structure EGraph where
  nodes : List (String × Attrs) := []
  edges : List (String × String) := []

/-- `MultiDiGraph.degree` of one node: incident edge ends, in plus out. -/
def degreeOf (edges : List (String × String)) (n : String) : Nat :=
  (edges.filter (fun e => e.1 == n)).length + (edges.filter (fun e => e.2 == n)).length

/-- `dict(graph.degree())` (enrich_network.py line 306), keyed in node
insertion order. -/
def degDict (g : EGraph) : List (String × Nat) :=
  g.nodes.map (fun p => (p.1, degreeOf g.edges p.1))

/-- `roles` (lines 326-329): `attrs.get("role") or infer_role(attrs)` per
node. -/
def rolesDict (g : EGraph) : List (String × Value) :=
  g.nodes.map (fun p => (p.1, enrichRole p.2))

/-- `monarch_nodes = [nid for nid, role in roles.items() if role == "monarch"]`
(line 335). -/
def monarchNodes (g : EGraph) : List String :=
  ((rolesDict g).filter (fun p => p.2 == Value.str "monarch")).map Prod.fst

/-- `if not monarch_nodes and deg: monarch_nodes = [max(deg, key=deg.get)]`
(lines 336-337); Python's `max` keeps the first key of maximal value. -/
def anchorNodes (g : EGraph) : List String :=
  match monarchNodes g, degDict g with
  | [], d :: ds => [(ds.foldl (fun best q => if best.2 < q.2 then q else best) d).1]
  | m, _ => m

/-- The neighbors of a node in `G.to_undirected()`. -/
def undirectedNeighbors (edges : List (String × String)) (n : String) : List String :=
  dedupKeepFirst ((edges.filter (fun e => e.1 == n)).map Prod.snd ++
    (edges.filter (fun e => e.2 == n)).map Prod.fst)

/-- BFS of `single_source_shortest_path_length` over the undirected view:
FIFO queue of `(node, hops)`, first assignment wins. -/
def splBFS (edges : List (String × String)) :
    Nat → List (String × Nat) → List (String × Nat) → List (String × Nat)
  | 0, _, dist => dist
  | _ + 1, [], dist => dist
  | fuel + 1, (n, d) :: rest, dist =>
    match alookup n dist with
    | some _ => splBFS edges fuel rest dist
    | none =>
      splBFS edges fuel (rest ++ (undirectedNeighbors edges n).map (fun m => (m, d + 1)))
        (dist ++ [(n, d)])

/-- `nx.single_source_shortest_path_length(undirected, source)`
(enrich_network.py line 276).  The fuel bounds the total number of queue
entries ever enqueued (the seed plus one per undirected edge end). -/
def singleSourceLengths (edges : List (String × String)) (source : String) :
    List (String × Nat) :=
  splBFS edges (2 * edges.length + 2) [(source, 0)] []

/-- One step of the min-merge of `compute_distances_to_monarchs`
(lines 277-279): `if node not in dist or length < dist[node]: dist[node] =
float(length)`. -/
def minMergeStep (dist : List (String × ℚ)) (nl : String × Nat) : List (String × ℚ) :=
  match alookup nl.1 dist with
  | some cur => if (nl.2 : ℚ) < cur then aupdate nl.1 (fun _ => (nl.2 : ℚ)) dist else dist
  | none => dist ++ [(nl.1, (nl.2 : ℚ))]

def minMerge (lengths : List (String × Nat)) (dist : List (String × ℚ)) :
    List (String × ℚ) :=
  lengths.foldl minMergeStep dist

/-- `max_dist = max(dist.values()) if dist else 1.0` (line 280). -/
def maxDistOf (dist : List (String × ℚ)) : ℚ :=
  match dist with
  | [] => 1
  | v :: rest => rest.foldl (fun a p => max a p.2) v.2

/-- `compute_distances_to_monarchs` (enrich_network.py lines 270-281). -/
def computeDistancesToMonarchs (g : EGraph) (anchors : List String) :
    List (String × ℚ) :=
  if anchors.isEmpty then g.nodes.map (fun p => (p.1, (0 : ℚ)))
  else
    let dist := anchors.foldl
      (fun dist source => minMerge (singleSourceLengths g.edges source) dist) []
    g.nodes.map (fun p => (p.1, (alookup p.1 dist).getD (maxDistOf dist)))

theorem foldMax_spec {α : Type} :
    ∀ (l : List (α × Nat)) (d : α × Nat),
      (l.foldl (fun best q => if best.2 < q.2 then q else best) d) ∈ d :: l ∧
      ∀ q ∈ d :: l, q.2 ≤ (l.foldl (fun best q => if best.2 < q.2 then q else best) d).2 := by
  intro l
  induction l with
  | nil =>
    intro d
    refine ⟨List.mem_cons_self _ _, ?_⟩
    intro q hq
    rw [List.mem_singleton] at hq
    subst hq
    exact le_refl _
  | cons e rest ih =>
    intro d
    simp only [List.foldl_cons]
    obtain ⟨hmem, hbound⟩ := ih (if d.2 < e.2 then e else d)
    have hd2le : d.2 ≤ (if d.2 < e.2 then e else d).2 ∧
        e.2 ≤ (if d.2 < e.2 then e else d).2 := by
      by_cases hc : d.2 < e.2
      · rw [if_pos hc]; exact ⟨le_of_lt hc, le_refl _⟩
      · rw [if_neg hc]; exact ⟨le_refl _, le_of_not_lt hc⟩
    constructor
    · rcases List.mem_cons.mp hmem with h | h
      · rw [h]
        by_cases hc : d.2 < e.2
        · rw [if_pos hc]
          exact List.mem_cons_of_mem _ (List.mem_cons_self _ _)
        · rw [if_neg hc]
          exact List.mem_cons_self _ _
      · exact List.mem_cons_of_mem _ (List.mem_cons_of_mem _ h)
    · intro q hq
      have hd2r := hbound _ (List.mem_cons_self _ _)
      rcases List.mem_cons.mp hq with h | h
      · rw [h]
        exact le_trans hd2le.1 hd2r
      · rcases List.mem_cons.mp h with h2 | h2
        · rw [h2]
          exact le_trans hd2le.2 hd2r
        · exact hbound q (List.mem_cons_of_mem _ h2)

theorem splBFS_append (edges : List (String × String)) :
    ∀ (fuel : Nat) (q dist : List (String × Nat)),
      ∃ t, splBFS edges fuel q dist = dist ++ t := by
  intro fuel
  induction fuel with
  | zero => intro q dist; exact ⟨[], (List.append_nil dist).symm⟩
  | succ fuel ih =>
    intro q dist
    cases q with
    | nil => exact ⟨[], (List.append_nil dist).symm⟩
    | cons nd rest =>
      obtain ⟨n, d⟩ := nd
      cases h1 : alookup n dist with
      | some v =>
        obtain ⟨t, ht⟩ := ih rest dist
        refine ⟨t, ?_⟩
        unfold splBFS
        rw [h1]
        exact ht
      | none =>
        obtain ⟨t, ht⟩ := ih (rest ++ (undirectedNeighbors edges n).map (fun m => (m, d + 1)))
          (dist ++ [(n, d)])
        refine ⟨(n, d) :: t, ?_⟩
        unfold splBFS
        rw [h1, ht, List.append_assoc]
        rfl

theorem splBFS_start (edges : List (String × String)) (k : String) (fuel : Nat) :
    ∃ t, splBFS edges (fuel + 1) [(k, 0)] [] = (k, 0) :: t := by
  obtain ⟨t, ht⟩ := splBFS_append edges fuel
    (([] : List (String × Nat)) ++ (undirectedNeighbors edges k).map (fun m => (m, 0 + 1)))
    [(k, 0)]
  exact ⟨t, ht⟩

theorem minMerge_keep0 {k : String} :
    ∀ (L : List (String × Nat)) (dist : List (String × ℚ)),
      alookup k dist = some 0 → alookup k (minMerge L dist) = some 0 := by
  intro L
  induction L with
  | nil => intro dist h; exact h
  | cons nl rest ih =>
    intro dist h
    have h0 : alookup k (minMergeStep dist nl) = some 0 := by
      unfold minMergeStep
      cases h1 : alookup nl.1 dist with
      | none => exact alookup_append_left _ h
      | some cur =>
        show alookup k (if (nl.2 : ℚ) < cur then
          aupdate nl.1 (fun _ => (nl.2 : ℚ)) dist else dist) = some 0
        by_cases hk : nl.1 = k
        · have hcur : cur = 0 := by
            rw [hk] at h1
            exact Option.some.inj (h1.symm.trans h)
          subst hcur
          rw [if_neg (not_lt.mpr (Nat.cast_nonneg nl.2))]
          exact h
        · by_cases hlt : (nl.2 : ℚ) < cur
          · rw [if_pos hlt, alookup_aupdate_ne _ _ (fun he => hk he.symm)]
            exact h
          · rw [if_neg hlt]
            exact h
    exact ih (minMergeStep dist nl) h0

theorem alookup_map_fst_apply {β : Type} (f : String → β) :
    ∀ (l : List (String × Attrs)) (k : String), k ∈ l.map Prod.fst →
      alookup k (l.map (fun p => (p.1, f p.1))) = some (f k) := by
  intro l
  induction l with
  | nil => intro k h; cases h
  | cons p rest ih =>
    intro k h
    simp only [List.map_cons, alookup]
    by_cases hk : p.1 = k
    · rw [if_pos hk, hk]
    · rw [if_neg hk]
      apply ih
      rw [List.map_cons] at h
      rcases List.mem_cons.mp h with h2 | h2
      · exact absurd h2.symm hk
      · exact h2

theorem undirectedNeighbors_mem (E : List (String × String)) (a b : String) :
    b ∈ undirectedNeighbors E a ↔ (a, b) ∈ E ∨ (b, a) ∈ E := by
  unfold undirectedNeighbors
  rw [mem_dedupKeepFirst, List.mem_append]
  constructor
  · intro h
    rcases h with h | h
    · rcases List.mem_map.mp h with ⟨e, hef, rfl⟩
      obtain ⟨heE, hcond⟩ := List.mem_filter.mp hef
      left
      have h1 : e.1 = a := beq_iff_eq.mp hcond
      rw [← h1]
      exact heE
    · rcases List.mem_map.mp h with ⟨e, hef, rfl⟩
      obtain ⟨heE, hcond⟩ := List.mem_filter.mp hef
      right
      have h1 : e.2 = a := beq_iff_eq.mp hcond
      rw [← h1]
      exact heE
  · intro h
    rcases h with h | h
    · exact Or.inl (List.mem_map.mpr ⟨(a, b), List.mem_filter.mpr ⟨h, by simp⟩, rfl⟩)
    · exact Or.inr (List.mem_map.mpr ⟨(b, a), List.mem_filter.mpr ⟨h, by simp⟩, rfl⟩)

/-- **C10** (corrected).  When no node of a non-empty graph is assigned the
"monarch" role, `enrich` silently substitutes the first node of maximum
degree as the whole anchor set: the anchor set is that single graph node,
every node's degree is bounded by its degree, it receives distance 0 from
`compute_distances_to_monarchs`, and the adjacency the distance BFS walks is
the symmetric (undirected) view of the edge list.  (The original claim's
"only when the graph has no nodes at all does every node receive distance 0"
part is false — see the counterexample.) -/
theorem enrich_monarch_fallback (g : EGraph)
    (hm : monarchNodes g = []) (hne : g.nodes ≠ []) :
    ∃ k, anchorNodes g = [k] ∧
      k ∈ g.nodes.map Prod.fst ∧
      (∀ n ∈ g.nodes.map Prod.fst, degreeOf g.edges n ≤ degreeOf g.edges k) ∧
      alookup k (computeDistancesToMonarchs g (anchorNodes g)) = some 0 ∧
      (∀ a b, b ∈ undirectedNeighbors g.edges a ↔ a ∈ undirectedNeighbors g.edges b) := by
  cases hn : g.nodes with
  | nil => exact absurd hn hne
  | cons p rest =>
    rw [← hn]
    have hdd : degDict g = (p.1, degreeOf g.edges p.1) ::
        rest.map (fun q => (q.1, degreeOf g.edges q.1)) := by
      unfold degDict
      rw [hn]
      rfl
    have ha : anchorNodes g = [((rest.map (fun q => (q.1, degreeOf g.edges q.1))).foldl
        (fun best q => if best.2 < q.2 then q else best) (p.1, degreeOf g.edges p.1)).1] := by
      unfold anchorNodes
      rw [hm, hdd]
    obtain ⟨hmem, hbound⟩ := foldMax_spec
      (rest.map (fun q => (q.1, degreeOf g.edges q.1))) (p.1, degreeOf g.edges p.1)
    generalize hrg : (rest.map (fun q => (q.1, degreeOf g.edges q.1))).foldl
      (fun best q => if best.2 < q.2 then q else best) (p.1, degreeOf g.edges p.1) = r
      at ha hmem hbound
    have hr : ∃ m ∈ g.nodes, r = (m.1, degreeOf g.edges m.1) := by
      rw [hn]
      rcases List.mem_cons.mp hmem with h | h
      · exact ⟨p, List.mem_cons_self _ _, h⟩
      · rcases List.mem_map.mp h with ⟨m, hm2, heq⟩
        exact ⟨m, List.mem_cons_of_mem _ hm2, heq.symm⟩
    obtain ⟨m, hmg, hrm⟩ := hr
    have hk : r.1 ∈ g.nodes.map Prod.fst := by
      rw [hrm]
      exact List.mem_map.mpr ⟨m, hmg, rfl⟩
    have hr2 : r.2 = degreeOf g.edges r.1 := by rw [hrm]
    refine ⟨r.1, ha, hk, ?_, ?_, ?_⟩
    · intro n hnm
      rcases List.mem_map.mp hnm with ⟨q, hq, rfl⟩
      have hqd : (q.1, degreeOf g.edges q.1) ∈ (p.1, degreeOf g.edges p.1) ::
          rest.map (fun w => (w.1, degreeOf g.edges w.1)) := by
        rw [hn] at hq
        rcases List.mem_cons.mp hq with h | h
        · rw [h]
          exact List.mem_cons_self _ _
        · exact List.mem_cons_of_mem _ (List.mem_map.mpr ⟨q, h, rfl⟩)
      have hb := hbound _ hqd
      rw [← hr2]
      exact hb
    · obtain ⟨t, ht⟩ := splBFS_start g.edges r.1 (2 * g.edges.length + 1)
      have hssl : singleSourceLengths g.edges r.1 = (r.1, 0) :: t := ht
      have hD0 : alookup r.1 (minMerge (singleSourceLengths g.edges r.1) []) = some 0 := by
        rw [hssl]
        have h0 : alookup r.1
            (minMergeStep ([] : List (String × ℚ)) (r.1, 0)) = some 0 := by
          show alookup r.1 ([(r.1, ((0 : ℕ) : ℚ))]) = some 0
          unfold alookup
          rw [if_pos rfl, Nat.cast_zero]
        exact minMerge_keep0 t (minMergeStep [] (r.1, 0)) h0
      rw [ha]
      have hcd : computeDistancesToMonarchs g [r.1] =
          g.nodes.map (fun w => (w.1,
            (alookup w.1 (minMerge (singleSourceLengths g.edges r.1) [])).getD
              (maxDistOf (minMerge (singleSourceLengths g.edges r.1) [])))) := rfl
      rw [hcd]
      have happ := alookup_map_fst_apply
        (fun n => (alookup n (minMerge (singleSourceLengths g.edges r.1) [])).getD
          (maxDistOf (minMerge (singleSourceLengths g.edges r.1) []))) g.nodes r.1 hk
      refine happ.trans (congrArg some ?_)
      show (alookup r.1 (minMerge (singleSourceLengths g.edges r.1) [])).getD
          (maxDistOf (minMerge (singleSourceLengths g.edges r.1) [])) = 0
      rw [hD0]
      rfl
    · intro a b
      rw [undirectedNeighbors_mem, undirectedNeighbors_mem]
      exact Or.comm

/-- A one-node, monarch-free graph: the fallback anchor is its only node. -/
def gOne : EGraph := { nodes := [("A", [])] }

/-- **C10 counterexample.**  In `gOne` the graph is non-empty and has no
monarch, yet every node receives distance 0 (the fallback anchor is the only
node): "only when the graph has no nodes at all does every node receive
distance 0" is false. -/
theorem enrich_distance_counterexample :
    gOne.nodes ≠ [] ∧
    monarchNodes gOne = [] ∧
    anchorNodes gOne = ["A"] ∧
    computeDistancesToMonarchs gOne (anchorNodes gOne) = [("A", 0)] :=
  ⟨List.cons_ne_nil _ _, rfl, rfl, by decide⟩

/-- A two-node, one-edge, monarch-free graph for the C10 witness. -/
def gW : EGraph := { nodes := [("A", []), ("B", [])], edges := [("A", "B")] }

theorem enrich_monarch_fallback_witness :
    monarchNodes gW = [] ∧ gW.nodes ≠ [] ∧
    (∃ k, anchorNodes gW = [k] ∧
      k ∈ gW.nodes.map Prod.fst ∧
      (∀ n ∈ gW.nodes.map Prod.fst, degreeOf gW.edges n ≤ degreeOf gW.edges k) ∧
      alookup k (computeDistancesToMonarchs gW (anchorNodes gW)) = some 0 ∧
      (∀ a b, b ∈ undirectedNeighbors gW.edges a ↔ a ∈ undirectedNeighbors gW.edges b)) :=
  ⟨rfl, List.cons_ne_nil _ _, enrich_monarch_fallback gW rfl (List.cons_ne_nil _ _)⟩

end CainAbel
